import Mathlib

/-!
# Verification of the conditional trajectory propagation core

Shallow embedding of `asyncmd/trajectory/propagate.py`: the frame-index
locator (`np.where` / `np.argmin` selection plus the cumulative-length walk),
the slice-plan builders (`cut_and_concatenate` and
`construct_TP_from_plus_and_minus_traj_segments`), the mixed sync/async
condition evaluator (`_condition_vals_for_traj`), the step-budget resolution
of `__init__`, and the `propagate` control loop.

Trajectories are an abstract type `α`; a frame-count function `len : α → Nat`
is passed where physical frame counts matter.  Machine effects (engine
creation, file recovery, segment requests) are recorded as an explicit
effect trace.  Fallible numpy operations (`np.min` / `np.argmin` of an empty
array, out-of-range indexing) are modelled with `Option`.
-/

set_option linter.unusedVariables false

/-- A Python slice tuple `(start, stop, step)`; `stop = none` is Python `None`. -/
abbrev Slice : Type := Int × Option Int × Int

/-- Indices (offset by `j`) at which the boolean list holds `true`;
models `np.where` on a 1d array (which returns the indices in ascending order). -/
def trueIndicesFrom : List Bool → Nat → List Nat
  | [], _ => []
  | b :: bs, j => (if b then [j] else []) ++ trueIndicesFrom bs (j + 1)

/-- Row-major `(row, column)` pairs of the `true` entries, rows numbered from `i`;
models `np.where` on a 2d array. -/
def whereRows : List (List Bool) → Nat → List (Nat × Nat)
  | [], _ => []
  | r :: rs, i => (trueIndicesFrom r 0).map (fun j => (i, j)) ++ whereRows rs (i + 1)

/-- `np.where` on a 2d boolean array (`conds_fullfilled, frame_nums = np.where(cond_vals)`). -/
def npWhere2D (m : List (List Bool)) : List (Nat × Nat) := whereRows m 0

/-- Index of the first occurrence of the minimum; models `np.argmin`
(`none` on an empty array, where numpy raises). -/
def npArgmin : List Nat → Option Nat
  | [] => none
  | x :: xs =>
    some (match npArgmin xs with
          | none => 0
          | some j => if x ≤ xs.getD j 0 then 0 else j + 1)

/-- Minimum of a list; models `np.min` (`none` on an empty array, where numpy raises). -/
def npMin : List Nat → Option Nat
  | [] => none
  | x :: xs => some (match npMin xs with | none => x | some m => min x m)

/-- `np.any` on a (2d, list-of-rows) boolean array. -/
def anyTrue (m : List (List Bool)) : Bool := m.any (fun row => row.any id)

/-- The selection `pairs[np.argmin(frame_nums)]` where `frame_nums = pairs.map snd`:
the source computes `min_idx = np.argmin(frame_nums)` and then reads
`conds_fullfilled[min_idx]` and `frame_nums[min_idx]`. -/
def selPair (pairs : List (Nat × Nat)) : Option (Nat × Nat) :=
  match npArgmin (pairs.map Prod.snd) with
  | none => none
  | some i => some (pairs.getD i (0, 0))

/-- The shared locator selection run on one boolean matrix:
`conds_fullfilled, frame_nums = np.where(m); min_idx = np.argmin(frame_nums)`,
returning `(conds_fullfilled[min_idx], frame_nums[min_idx])`. -/
def selectFirstTrue (m : List (List Bool)) : Option (Nat × Nat) :=
  selPair (npWhere2D m)

/-- The cumulative-length walk of the source
(`last_part_idx = 0; frame_sum = part_lens[0]; while f >= frame_sum: ...`
followed by `f - sum(part_lens[:last_part_idx])`), written as structural
recursion: returns `(last_part_idx, local_frame)`; `none` models the
IndexError raised when the frame lies beyond all parts. -/
def findPart : List Nat → Nat → Option (Nat × Nat)
  | [], _ => none
  | l :: ls, f =>
    if f < l then some (0, f)
    else (findPart ls (f - l)).map (fun p => (p.1 + 1, p.2))

/-- `np.concatenate(mats, axis=1)` for boolean matrices of `nRows` rows each. -/
def concatAxis1 (mats : List (List (List Bool))) (nRows : Nat) : List (List Bool) :=
  (List.range nRows).map (fun i => (mats.map (fun m => m.getD i [])).flatten)

/-- Local frame indices selected by a Python slice `(start, stop, step)` on a
sequence of length `L`, for `step = 1` or `step = -1` (the only strides the
plan builders emit), following CPython `slice.indices` normalization.  This
models the frame selection the concatenator collaborator performs for one
`(trajectory, slice)` pair of the plan. -/
def normFwd (L : Nat) (i : Int) : Int :=
  if i < 0 then max (i + L) 0 else min i L

def normBwd (L : Nat) (i : Int) : Int :=
  if i < 0 then max (i + L) (-1) else min i ((L : Int) - 1)

def normStopFwd (L : Nat) : Option Int → Int
  | none => (L : Int)
  | some t0 => normFwd L t0

def normStopBwd (L : Nat) : Option Int → Int
  | none => (-1 : Int)
  | some t0 => normBwd L t0

def sliceIndices (L : Nat) (start : Int) (stop : Option Int) (step : Int) : List Nat :=
  if step = 1 then
    (List.range (normStopFwd L stop - normFwd L start).toNat).map
      (fun (k : Nat) => (normFwd L start + (k : Int)).toNat)
  else if step = -1 then
    (List.range (normBwd L start - normStopBwd L stop).toNat).map
      (fun (k : Nat) => (normBwd L start - (k : Int)).toNat)
  else []

/-- All `(plan position, local frame)` selections a plan makes, positions
numbered from `pos`: entry `i` of the plan reads the frames
`sliceIndices (len trajs[i]) slices[i]` of its trajectory, in order. -/
def planSelectionsFrom {α : Type} (len : α → Nat) :
    List (α × Slice) → Nat → List (Nat × Nat)
  | [], _ => []
  | (t, sl) :: rest, pos =>
    (sliceIndices (len t) sl.1 sl.2.1 sl.2.2).map (fun fr => (pos, fr))
      ++ planSelectionsFrom len rest (pos + 1)

/-- The `(plan position, local frame)` selections of the plan `(trajs, slices)`
(the two parallel lists handed to `TrajectoryConcatenator().concatenate`).
Its length is the frame count of the stitched output trajectory. -/
def planSelections {α : Type} (len : α → Nat) (trajs : List α) (slices : List Slice) :
    List (Nat × Nat) :=
  planSelectionsFrom len (trajs.zip slices) 0

/-- A condition as held by the propagator: the callable together with the
`iscoroutinefunction` flag recorded by the `conditions` setter. -/
abbrev Cond (α : Type) := (α → List Bool) × Bool

/-- The reassembly loop of `_condition_vals_for_traj` in the mixed case:
walk the conditions in order, popping the next gathered coroutine result for
a coroutine condition and calling the callable inline otherwise. -/
def rebuildResults {α : Type} (t : α) : List (Cond α) → List (List Bool) → List (List Bool)
  | [], _ => []
  | c :: rest, coroRes =>
    if c.2 then coroRes.headD [] :: rebuildResults t rest coroRes.tail
    else c.1 t :: rebuildResults t rest coroRes

/-- `ConditionalTrajectoryPropagator._condition_vals_for_traj`: all-coroutine
and no-coroutine fast paths, else gather the coroutine conditions (modelled
with `asyncio.gather`'s guarantee of returning results in argument order)
and reinsert results at their original index positions. -/
def _condition_vals_for_traj {α : Type} (conds : List (Cond α)) (t : α) :
    List (List Bool) :=
  if conds.all (fun c => c.2) then conds.map (fun c => c.1 t)
  else if !conds.any (fun c => c.2) then conds.map (fun c => c.1 t)
  else rebuildResults t conds ((conds.filter (fun c => c.2)).map (fun c => c.1 t))

/-- The frame-index locator as run inside `cut_and_concatenate`:
`part_lens = [len(c[0]) for c in cond_vals]`, concatenate along the frame
axis, `np.where` + `np.argmin` selection, then the cumulative walk.
Returns `(condition idx, global frame, last_part_idx, local frame)`. -/
def locate (condVals : List (List (List Bool))) (nConds : Nat) :
    Option (Nat × Nat × Nat × Nat) :=
  match selectFirstTrue (concatAxis1 condVals nConds) with
  | none => none
  | some (c, f) =>
    match findPart (condVals.map (fun cv => (cv.headD []).length)) f with
    | none => none
    | some (j, loc) => some (c, f, j, loc)

/-- The pure content of `ConditionalTrajectoryPropagator.cut_and_concatenate`:
evaluate all conditions on all segments, locate the first frame in any
condition, and build the slice plan
(`[(0, None, 1)] * last_part_idx` when `last_part_idx > 0`, then
`(0, _first_frame_in_cond + 1, 1)`) over `trajs[:last_part_idx + 1]`.
Returns `(trajs passed to the concatenator, slices, condition idx)`. -/
def cut_and_concatenate {α : Type} (conds : List (Cond α)) (trajs : List α) :
    Option (List α × List Slice × Nat) :=
  match locate (trajs.map (_condition_vals_for_traj conds)) conds.length with
  | none => none
  | some (c, _, j, loc) =>
    let slices : List Slice :=
      (if 0 < j then List.replicate j (((0 : Int), (none : Option Int), (1 : Int)) : Slice)
       else [])
        ++ [(((0 : Int), some ((loc : Int) + 1), (1 : Int)) : Slice)]
    some (trajs.take (j + 1), slices, c)

/-- The locator as run (twice) inside
`construct_TP_from_plus_and_minus_traj_segments`: `np.where` on the 1d
concatenated state values, `np.min`, then the cumulative walk.
Returns `(global frame, part idx, local frame)`. -/
def locate1D (vals : List (List Bool)) : Option (Nat × Nat × Nat) :=
  match npMin (trueIndicesFrom vals.flatten 0) with
  | none => none
  | some g =>
    match findPart (vals.map List.length) g with
    | none => none
    | some (j, loc) => some (g, j, loc)

/-- The slice-plan construction of
`construct_TP_from_plus_and_minus_traj_segments`: the minus chain is read
backwards (`(_first_frame_in_minus, None, -1)` on the part reaching the
state, `(-1, None, -1)` on the earlier parts, in reversed order), then the
plus chain forwards, excluding the shared starting configuration from plus
part 0 (`start = 1`) and slicing the terminal plus part through its first
frame in the plus state inclusive.  `minusFunc` and `plusFunc` are
`state_funcs[minus_state]` and `state_funcs[plus_state]`. -/
def construct_TP_from_plus_and_minus_traj_segments {α : Type} [Inhabited α]
    (minusFunc plusFunc : α → List Bool) (minusTrajs plusTrajs : List α) :
    Option (List α × List Slice) :=
  match locate1D (minusTrajs.map minusFunc) with
  | none => none
  | some (_, jm, m) =>
    let slicesM : List Slice :=
      (((m : Int), none, (-1 : Int)) : Slice)
        :: (List.range jm).reverse.map (fun _ => (((-1 : Int), none, (-1 : Int)) : Slice))
    let trajsM : List α :=
      minusTrajs.getD jm default
        :: (List.range jm).reverse.map (fun i => minusTrajs.getD i default)
    match locate1D (plusTrajs.map plusFunc) with
    | none => none
    | some (_, kp, p) =>
      if 0 < kp then
        some (trajsM
                ++ (plusTrajs.getD 0 default
                      :: ((List.range' 1 (kp - 1)).map (fun i => plusTrajs.getD i default)
                          ++ [plusTrajs.getD kp default])),
              slicesM
                ++ ((((1 : Int), none, (1 : Int)) : Slice)
                      :: ((List.range' 1 (kp - 1)).map
                            (fun _ => (((0 : Int), none, (1 : Int)) : Slice))
                          ++ [(((0 : Int), some ((p : Int) + 1), (1 : Int)) : Slice)])))
      else
        some (trajsM ++ [plusTrajs.getD kp default],
              slicesM ++ [(((1 : Int), some ((p : Int) + 1), (1 : Int)) : Slice)])

/-- Step-budget resolution of `ConditionalTrajectoryPropagator.__init__`:
`max_steps` takes precedence, else `max_frames * nstout`, else `np.inf`
(modelled as `none`). -/
def resolveMaxSteps (maxStepsArg maxFramesArg : Option Nat) (nstout : Nat) : Option Nat :=
  match maxStepsArg with
  | some ms => some ms
  | none =>
    match maxFramesArg with
    | some mf => some (mf * nstout)
    | none => none

/-- `step_counter <= self.max_steps`, where `none` is `np.inf`
(every integer compares `<=` to it). -/
def leBudget (stepCounter : Nat) : Option Nat → Bool
  | none => true
  | some m => stepCounter ≤ m

/-- Observable effects of one `propagate` call, in order. -/
inductive Effect where
  | engineCreate
  | prepare
  | getAllTrajParts
  | prepareFromFiles
  | runSegment (k : Nat)
deriving DecidableEq, Repr

/-- Result of `propagate`: either the segment list with the index of the
condition first fulfilled, or the `MaxStepsReachedError`, which carries the
number of steps produced and the configured maximum in its message
(`"Engine produced {step_counter} steps (>= {self.max_steps})."`). -/
inductive PropResult (α : Type) where
  | success (trajs : List α) (condIdx : Nat)
  | maxStepsReached (stepsProduced : Nat) (maxSteps : Option Nat)
deriving DecidableEq, Repr

/-- The `while` loop of `propagate`: while no condition is fulfilled and
`step_counter <= max_steps`, run one walltime segment (`seg k` with the
engine's `steps_done` reading `steps k` afterwards), evaluate all conditions
on it, append it.  After the loop, raise `MaxStepsReachedError` if no
condition was fulfilled, else select the first fulfilled condition on the
last segment.  `fuel` bounds the number of iterations (`none` = fuel ran
out before the loop exited). -/
def propagateLoop {α : Type} (seg : Nat → α) (steps : Nat → Nat)
    (conds : List (Cond α)) (maxSteps : Option Nat) :
    Nat → List α → Nat → Nat → List Effect × Option (PropResult α)
  | 0, _, _, _ => ([], none)
  | fuel + 1, trajs, sc, k =>
    if leBudget sc maxSteps then
      let t := seg k
      let cv := _condition_vals_for_traj conds t
      if anyTrue cv then
        match selectFirstTrue cv with
        | some pr => ([Effect.runSegment k], some (PropResult.success (trajs ++ [t]) pr.1))
        | none => ([Effect.runSegment k], none)
      else
        let rest := propagateLoop seg steps conds maxSteps fuel (trajs ++ [t]) (steps k) (k + 1)
        (Effect.runSegment k :: rest.1, rest.2)
    else
      ([], some (PropResult.maxStepsReached sc maxSteps))

/-- `ConditionalTrajectoryPropagator.propagate`.  The engine is modelled by
`seg` (the segment produced by the `k`-th `run_walltime` call), `steps`
(`engine.steps_done` after that call) and `engineStepsDone`
(`engine.steps_done` right after `prepare_from_files`); `recovered` is what
`get_all_traj_parts` returns.  The first component is the trace of
observable effects, in order. -/
def propagate {α : Type} (seg : Nat → α) (steps : Nat → Nat) (engineStepsDone : Nat)
    (recovered : List α) (conds : List (Cond α)) (maxSteps : Option Nat)
    (startConf : α) (continuation : Bool) (fuel : Nat) :
    List Effect × Option (PropResult α) :=
  let cvStart := _condition_vals_for_traj conds startConf
  if anyTrue cvStart then
    match selectFirstTrue cvStart with
    | some pr => ([], some (PropResult.success [startConf] pr.1))
    | none => ([], none)
  else
    if !continuation then
      let rest := propagateLoop seg steps conds maxSteps fuel [] 0 0
      (Effect.engineCreate :: Effect.prepare :: rest.1, rest.2)
    else
      let condVals := recovered.map (_condition_vals_for_traj conds)
      let catVals := concatAxis1 condVals conds.length
      if anyTrue catVals then
        match selectFirstTrue catVals with
        | some pr =>
          ([Effect.engineCreate, Effect.getAllTrajParts],
           some (PropResult.success recovered pr.1))
        | none => ([Effect.engineCreate, Effect.getAllTrajParts], none)
      else
        let rest := propagateLoop seg steps conds maxSteps fuel recovered engineStepsDone 0
        (Effect.engineCreate :: Effect.getAllTrajParts :: Effect.prepareFromFiles :: rest.1,
         rest.2)

/-- Consistency of a list of per-segment condition-value matrices: each has
one row per condition and rectangular rows (the data-model invariant; the
code reads each segment's frame count off row 0). -/
def ConsistentVals (nConds : Nat) (condVals : List (List (List Bool))) : Prop :=
  ∀ seg ∈ condVals, seg.length = nConds ∧ ∀ row ∈ seg, row.length = (seg.headD []).length

/-! ## Lemmas about the numpy primitives -/

/-- Strict lexicographic order on (row, column) pairs; `npWhere2D` emits its
pairs in this order (row-major). -/
def LexLt (p q : Nat × Nat) : Prop := p.1 < q.1 ∨ (p.1 = q.1 ∧ p.2 < q.2)

theorem npArgmin_eq_none_iff (l : List Nat) : npArgmin l = none ↔ l = [] := by
  cases l <;> simp [npArgmin]

theorem npArgmin_cons_none {x : Nat} {xs : List Nat} (h : npArgmin xs = none) :
    npArgmin (x :: xs) = some 0 := by
  simp [npArgmin, h]

theorem npArgmin_cons_some {x j : Nat} {xs : List Nat} (h : npArgmin xs = some j) :
    npArgmin (x :: xs) = some (if x ≤ xs.getD j 0 then 0 else j + 1) := by
  simp [npArgmin, h]

theorem npArgmin_lt_length {l : List Nat} {i : Nat} (h : npArgmin l = some i) :
    i < l.length := by
  induction l generalizing i with
  | nil => simp [npArgmin] at h
  | cons x xs ih =>
    rw [List.length_cons]
    cases hxs : npArgmin xs with
    | none =>
      rw [npArgmin_cons_none hxs] at h
      simp at h
      omega
    | some j =>
      have hj := ih hxs
      rw [npArgmin_cons_some hxs] at h
      by_cases hle : x ≤ xs.getD j 0
      · rw [if_pos hle] at h
        simp at h
        omega
      · rw [if_neg hle] at h
        simp at h
        omega

theorem getD_map_of_lt {α β : Type} {f : α → β} {l : List α} {i : Nat}
    (h : i < l.length) (d : β) (d' : α) : (l.map f).getD i d = f (l.getD i d') := by
  rw [List.getD_eq_getElem _ _ (by simpa using h), List.getElem_map,
    List.getD_eq_getElem _ _ h]

theorem selPair_cons (p : Nat × Nat) (ps : List (Nat × Nat)) :
    selPair (p :: ps) =
      match selPair ps with
      | none => some p
      | some q => if p.2 ≤ q.2 then some p else some q := by
  cases hps : npArgmin (ps.map Prod.snd) with
  | none =>
    have hnil : ps = [] := List.map_eq_nil_iff.mp ((npArgmin_eq_none_iff _).mp hps)
    subst hnil
    simp [selPair, npArgmin]
  | some j =>
    have hj : j < ps.length := by simpa using npArgmin_lt_length hps
    have hsp : selPair ps = some (ps.getD j (0, 0)) := by
      simp only [selPair, hps]
    rw [hsp]
    have harg : npArgmin ((p :: ps).map Prod.snd)
        = some (if p.2 ≤ (ps.map Prod.snd).getD j 0 then 0 else j + 1) := by
      rw [List.map_cons]
      exact npArgmin_cons_some hps
    simp only [selPair, harg, getD_map_of_lt hj 0 (0, 0)]
    by_cases hle : p.2 ≤ (ps.getD j (0, 0)).2
    · rw [if_pos hle, if_pos hle]
      simp
    · rw [if_neg hle, if_neg hle]
      simp

theorem selPair_eq_none_iff {l : List (Nat × Nat)} : selPair l = none ↔ l = [] := by
  cases l with
  | nil => simp [selPair, npArgmin]
  | cons p ps =>
    rw [selPair_cons]
    cases h : selPair ps with
    | none => simp
    | some q =>
      by_cases hle : p.2 ≤ q.2 <;> simp [hle]

theorem selPair_mem {l : List (Nat × Nat)} {q : Nat × Nat} (h : selPair l = some q) :
    q ∈ l := by
  induction l generalizing q with
  | nil => simp [selPair, npArgmin] at h
  | cons p ps ih =>
    rw [selPair_cons] at h
    cases hsp : selPair ps with
    | none =>
      rw [hsp] at h
      simp at h
      simp [h]
    | some q' =>
      simp only [hsp] at h
      by_cases hle : p.2 ≤ q'.2
      · simp [hle] at h
        simp [h]
      · simp [hle] at h
        subst h
        exact List.mem_cons_of_mem _ (ih hsp)

theorem selPair_snd_le {l : List (Nat × Nat)} {q : Nat × Nat} (h : selPair l = some q) :
    ∀ r ∈ l, q.2 ≤ r.2 := by
  induction l generalizing q with
  | nil => simp [selPair, npArgmin] at h
  | cons p ps ih =>
    rw [selPair_cons] at h
    cases hsp : selPair ps with
    | none =>
      have hnil : ps = [] := selPair_eq_none_iff.mp hsp
      subst hnil
      rw [hsp] at h
      simp at h
      subst h
      intro r hr
      simp at hr
      simp [hr]
    | some q' =>
      simp only [hsp] at h
      by_cases hle : p.2 ≤ q'.2
      · rw [if_pos hle] at h
        have hq : q = p := (Option.some.inj h).symm
        subst hq
        intro r hr
        rcases List.mem_cons.mp hr with hrp | hrm
        · simp [hrp]
        · exact le_trans hle (ih hsp r hrm)
      · rw [if_neg hle] at h
        have hq : q = q' := (Option.some.inj h).symm
        subst hq
        intro r hr
        rcases List.mem_cons.mp hr with hrp | hrm
        · rw [hrp]
          omega
        · exact ih hsp r hrm

theorem selPair_fst_min {l : List (Nat × Nat)} {q : Nat × Nat}
    (hs : l.Pairwise LexLt) (h : selPair l = some q) :
    ∀ r ∈ l, r.2 = q.2 → q.1 ≤ r.1 := by
  induction l generalizing q with
  | nil => simp [selPair, npArgmin] at h
  | cons p ps ih =>
    have hs' : ps.Pairwise LexLt := (List.pairwise_cons.mp hs).2
    have hcross : ∀ r ∈ ps, LexLt p r := (List.pairwise_cons.mp hs).1
    rw [selPair_cons] at h
    cases hsp : selPair ps with
    | none =>
      have hnil : ps = [] := selPair_eq_none_iff.mp hsp
      subst hnil
      rw [hsp] at h
      simp at h
      subst h
      intro r hr _
      simp at hr
      simp [hr]
    | some q' =>
      simp only [hsp] at h
      by_cases hle : p.2 ≤ q'.2
      · rw [if_pos hle] at h
        have hq : q = p := (Option.some.inj h).symm
        subst hq
        intro r hr hre
        rcases List.mem_cons.mp hr with hrp | hrm
        · simp [hrp]
        · rcases hcross r hrm with hlt | ⟨heq, hlt⟩
          · omega
          · omega
      · rw [if_neg hle] at h
        have hq : q = q' := (Option.some.inj h).symm
        subst hq
        intro r hr hre
        rcases List.mem_cons.mp hr with hrp | hrm
        · rw [hrp] at hre
          omega
        · exact ih hs' hsp r hrm hre

theorem trueIndicesFrom_mem {bs : List Bool} {j x : Nat} :
    x ∈ trueIndicesFrom bs j ↔ j ≤ x ∧ bs.getD (x - j) false = true := by
  induction bs generalizing j with
  | nil => simp [trueIndicesFrom]
  | cons b bs ih =>
    simp only [trueIndicesFrom, List.mem_append]
    constructor
    · rintro (hx | hx)
      · by_cases hb : b
        · simp [hb] at hx
          subst hx
          simp [hb]
        · simp [hb] at hx
      · obtain ⟨h1, h2⟩ := ih.mp hx
        refine ⟨by omega, ?_⟩
        have hxj : x - j = (x - (j + 1)) + 1 := by omega
        rw [hxj, List.getD_cons_succ]
        exact h2
    · rintro ⟨h1, h2⟩
      by_cases hxj : x = j
      · subst hxj
        simp at h2
        simp [h2]
      · right
        apply ih.mpr
        refine ⟨by omega, ?_⟩
        have hxj' : x - j = (x - (j + 1)) + 1 := by omega
        rw [hxj', List.getD_cons_succ] at h2
        exact h2

theorem whereRows_mem {rs : List (List Bool)} {i c f : Nat} :
    (c, f) ∈ whereRows rs i ↔ i ≤ c ∧ ((rs.getD (c - i) []).getD f false = true) := by
  induction rs generalizing i with
  | nil => simp [whereRows]
  | cons r rs ih =>
    simp only [whereRows, List.mem_append, List.mem_map]
    constructor
    · rintro (⟨j, hj, hcf⟩ | hx)
      · obtain ⟨hc, hf⟩ := Prod.mk.inj hcf
        subst hc
        subst hf
        obtain ⟨_, h2⟩ := trueIndicesFrom_mem.mp hj
        simpa using h2
      · obtain ⟨h1, h2⟩ := ih.mp hx
        refine ⟨by omega, ?_⟩
        have hci : c - i = (c - (i + 1)) + 1 := by omega
        rw [hci, List.getD_cons_succ]
        exact h2
    · rintro ⟨h1, h2⟩
      by_cases hci : c = i
      · subst hci
        simp at h2
        exact Or.inl ⟨f, trueIndicesFrom_mem.mpr ⟨Nat.zero_le _, by simpa using h2⟩, rfl⟩
      · right
        apply ih.mpr
        refine ⟨by omega, ?_⟩
        have hci' : c - i = (c - (i + 1)) + 1 := by omega
        rw [hci', List.getD_cons_succ] at h2
        exact h2

theorem npWhere2D_mem {m : List (List Bool)} {c f : Nat} :
    (c, f) ∈ npWhere2D m ↔ (m.getD c []).getD f false = true := by
  rw [npWhere2D, whereRows_mem]
  simp

theorem trueIndicesFrom_ge {bs : List Bool} {j x : Nat}
    (h : x ∈ trueIndicesFrom bs j) : j ≤ x :=
  (trueIndicesFrom_mem.mp h).1

theorem whereRows_fst_ge {rs : List (List Bool)} {i : Nat} {q : Nat × Nat}
    (h : q ∈ whereRows rs i) : i ≤ q.1 := by
  obtain ⟨c, f⟩ := q
  exact (whereRows_mem.mp h).1

theorem trueIndicesFrom_sorted (bs : List Bool) (j : Nat) :
    (trueIndicesFrom bs j).Pairwise (· < ·) := by
  induction bs generalizing j with
  | nil => simp [trueIndicesFrom]
  | cons b bs ih =>
    rw [trueIndicesFrom, List.pairwise_append]
    refine ⟨?_, ih (j + 1), ?_⟩
    · by_cases hb : b <;> simp [hb]
    · intro x hx y hy
      by_cases hb : b
      · simp [hb] at hx
        subst hx
        have := trueIndicesFrom_ge hy
        omega
      · simp [hb] at hx

theorem whereRows_sorted (rs : List (List Bool)) (i : Nat) :
    (whereRows rs i).Pairwise LexLt := by
  induction rs generalizing i with
  | nil => simp [whereRows]
  | cons r rs ih =>
    rw [whereRows, List.pairwise_append]
    refine ⟨?_, ih (i + 1), ?_⟩
    · rw [List.pairwise_map]
      exact (trueIndicesFrom_sorted r 0).imp (fun h => Or.inr ⟨rfl, h⟩)
    · intro x hx y hy
      obtain ⟨j, _, rfl⟩ := List.mem_map.mp hx
      have hge := whereRows_fst_ge hy
      exact Or.inl (by simp; omega)

theorem npWhere2D_sorted (m : List (List Bool)) : (npWhere2D m).Pairwise LexLt :=
  whereRows_sorted m 0

theorem npMin_eq_none_iff (l : List Nat) : npMin l = none ↔ l = [] := by
  cases l <;> simp [npMin]

theorem npMin_cons_none {x : Nat} {xs : List Nat} (h : npMin xs = none) :
    npMin (x :: xs) = some x := by
  simp [npMin, h]

theorem npMin_cons_some {x m : Nat} {xs : List Nat} (h : npMin xs = some m) :
    npMin (x :: xs) = some (min x m) := by
  simp [npMin, h]

theorem npMin_mem {l : List Nat} {m : Nat} (h : npMin l = some m) : m ∈ l := by
  induction l generalizing m with
  | nil => simp [npMin] at h
  | cons x xs ih =>
    cases hxs : npMin xs with
    | none =>
      rw [npMin_cons_none hxs] at h
      simp at h
      simp [h]
    | some m' =>
      rw [npMin_cons_some hxs] at h
      have hm : m = min x m' := (Option.some.inj h).symm
      subst hm
      rcases le_total x m' with hle | hle
      · simp [Nat.min_eq_left hle]
      · rw [Nat.min_eq_right hle]
        exact List.mem_cons_of_mem _ (ih hxs)

theorem npMin_le {l : List Nat} {m : Nat} (h : npMin l = some m) : ∀ x ∈ l, m ≤ x := by
  induction l generalizing m with
  | nil => simp [npMin] at h
  | cons x xs ih =>
    cases hxs : npMin xs with
    | none =>
      have hnil : xs = [] := (npMin_eq_none_iff _).mp hxs
      subst hnil
      rw [npMin_cons_none hxs] at h
      have hm : m = x := (Option.some.inj h).symm
      subst hm
      simp
    | some m' =>
      rw [npMin_cons_some hxs] at h
      have hm : m = min x m' := (Option.some.inj h).symm
      subst hm
      intro y hy
      rcases List.mem_cons.mp hy with hy | hy
      · subst hy
        exact Nat.min_le_left ..
      · exact le_trans (Nat.min_le_right ..) (ih hxs y hy)

theorem findPart_isSome_iff {pl : List Nat} {f : Nat} :
    (findPart pl f).isSome ↔ f < pl.sum := by
  induction pl generalizing f with
  | nil => simp [findPart]
  | cons l ls ih =>
    simp only [findPart, List.sum_cons]
    by_cases hf : f < l
    · simp [hf]
      omega
    · simp only [hf, if_false]
      rcases hfp : findPart ls (f - l) with _ | p
      · have hiff := @ih (f - l)
        rw [hfp] at hiff
        simp at hiff ⊢
        omega
      · have hiff := @ih (f - l)
        rw [hfp] at hiff
        simp at hiff ⊢
        omega

theorem findPart_spec {pl : List Nat} {f j loc : Nat}
    (h : findPart pl f = some (j, loc)) :
    j < pl.length ∧ loc < pl.getD j 0 ∧ (pl.take j).sum + loc = f := by
  induction pl generalizing f j loc with
  | nil => simp [findPart] at h
  | cons l ls ih =>
    simp only [findPart] at h
    by_cases hf : f < l
    · simp [hf] at h
      obtain ⟨hj, hloc⟩ := h
      subst hj
      subst hloc
      simpa using hf
    · simp only [hf, if_false, Option.map_eq_some'] at h
      obtain ⟨⟨j', loc'⟩, hfp, heq⟩ := h
      have hj : j = j' + 1 := by
        have hfst := congrArg Prod.fst heq
        simpa using hfst.symm
      have hloc : loc = loc' := by
        have hsnd := congrArg Prod.snd heq
        simpa using hsnd.symm
      subst hj
      subst hloc
      obtain ⟨h1, h2, h3⟩ := ih hfp
      refine ⟨?_, ?_, ?_⟩
      · simp only [List.length_cons]
        omega
      · rw [List.getD_cons_succ]
        exact h2
      · simp only [List.take_succ_cons, List.sum_cons]
        omega

/-! ## Bridges between membership and indexed access -/

theorem mem_true_iff_getD {l : List Bool} : true ∈ l ↔ ∃ f, l.getD f false = true := by
  constructor
  · intro h
    obtain ⟨n, hn, hval⟩ := List.mem_iff_getElem.mp h
    exact ⟨n, by rw [List.getD_eq_getElem _ _ hn, hval]⟩
  · rintro ⟨f, hf⟩
    by_cases hlt : f < l.length
    · rw [List.getD_eq_getElem _ _ hlt] at hf
      exact hf ▸ List.getElem_mem hlt
    · rw [List.getD_eq_default _ _ (by omega)] at hf
      exact absurd hf (by simp)

theorem getD_true_lt_length {l : List Bool} {f : Nat} (h : l.getD f false = true) :
    f < l.length := by
  by_contra hge
  rw [List.getD_eq_default _ _ (by omega)] at h
  exact absurd h (by simp)

theorem getD_mem_of_lt {α : Type} {l : List α} {i : Nat} (h : i < l.length) (d : α) :
    l.getD i d ∈ l := by
  rw [List.getD_eq_getElem _ _ h]
  exact List.getElem_mem h

theorem getD_lt_length_of_ne {α : Type} {l : List α} {i : Nat} {d : α}
    (h : l.getD i d ≠ d) : i < l.length := by
  by_contra hge
  rw [List.getD_eq_default _ _ (by omega)] at h
  exact h rfl

/-! ## The concatenated condition matrix -/

theorem getD_range_map {β : Type} (g : Nat → β) {n i : Nat} (h : i < n) (d : β) :
    ((List.range n).map g).getD i d = g i := by
  rw [getD_map_of_lt (by simpa using h) d 0,
    List.getD_eq_getElem _ _ (by simpa using h), List.getElem_range]

theorem concatAxis1_getD {mats : List (List (List Bool))} {nRows i : Nat}
    (h : i < nRows) :
    (concatAxis1 mats nRows).getD i [] = (mats.map (fun m => m.getD i [])).flatten := by
  rw [concatAxis1, getD_range_map _ h]

theorem concatAxis1_getD_of_ge {mats : List (List (List Bool))} {nRows i : Nat}
    (h : nRows ≤ i) : (concatAxis1 mats nRows).getD i [] = [] := by
  apply List.getD_eq_default
  simp [concatAxis1]
  omega

theorem consistent_row_length {nConds : Nat} {condVals : List (List (List Bool))}
    (hcons : ConsistentVals nConds condVals) {cv : List (List Bool)} {i : Nat}
    (hmem : cv ∈ condVals) (hi : i < nConds) :
    (cv.getD i []).length = (cv.headD []).length := by
  obtain ⟨hlen, hrows⟩ := hcons cv hmem
  exact hrows _ (getD_mem_of_lt (by omega) _)

/-- Under consistency, every row of the concatenated matrix has the total
length `part_lens.sum`. -/
theorem concatAxis1_row_length {nConds : Nat} {condVals : List (List (List Bool))}
    (hcons : ConsistentVals nConds condVals) {i : Nat} (hi : i < nConds) :
    ((concatAxis1 condVals nConds).getD i []).length
      = (condVals.map (fun cv => (cv.headD []).length)).sum := by
  rw [concatAxis1_getD hi, List.length_flatten, List.map_map]
  congr 1
  apply List.map_congr_left
  intro cv hmem
  exact consistent_row_length hcons hmem hi

/-! ## np.any and the selection -/

theorem anyTrue_iff_exists {m : List (List Bool)} :
    anyTrue m = true ↔ ∃ c f, (m.getD c []).getD f false = true := by
  rw [anyTrue, List.any_eq_true]
  constructor
  · rintro ⟨row, hrow, hany⟩
    obtain ⟨b, hb, hbtrue⟩ := List.any_eq_true.mp hany
    have hbt : b = true := by simpa using hbtrue
    subst hbt
    obtain ⟨c, hc, hrc⟩ := List.mem_iff_getElem.mp hrow
    obtain ⟨f, hf⟩ := mem_true_iff_getD.mp hb
    refine ⟨c, f, ?_⟩
    rw [List.getD_eq_getElem _ _ hc, hrc]
    exact hf
  · rintro ⟨c, f, hcf⟩
    have hflt : f < (m.getD c []).length := getD_true_lt_length hcf
    have hc : c < m.length := by
      apply getD_lt_length_of_ne
      intro hnil
      rw [hnil] at hflt
      simp at hflt
    refine ⟨m.getD c [], getD_mem_of_lt hc _, ?_⟩
    rw [List.any_eq_true]
    exact ⟨true, mem_true_iff_getD.mpr ⟨f, hcf⟩, rfl⟩

theorem selectFirstTrue_eq_none_iff {m : List (List Bool)} :
    selectFirstTrue m = none ↔ anyTrue m = false := by
  rw [selectFirstTrue, selPair_eq_none_iff]
  constructor
  · intro h
    by_contra hne
    have hany : anyTrue m = true := by
      cases hv : anyTrue m
      · exact absurd hv hne
      · rfl
    obtain ⟨c, f, hcf⟩ := anyTrue_iff_exists.mp hany
    have : (c, f) ∈ npWhere2D m := npWhere2D_mem.mpr hcf
    rw [h] at this
    simp at this
  · intro h
    rw [List.eq_nil_iff_forall_not_mem]
    rintro ⟨c, f⟩ hmem
    have hcf := npWhere2D_mem.mp hmem
    have : anyTrue m = true := anyTrue_iff_exists.mpr ⟨c, f, hcf⟩
    rw [h] at this
    exact absurd this (by simp)

theorem selectFirstTrue_isSome {m : List (List Bool)} (h : anyTrue m = true) :
    ∃ c f, selectFirstTrue m = some (c, f) := by
  cases hsel : selectFirstTrue m with
  | none =>
    rw [selectFirstTrue_eq_none_iff] at hsel
    rw [h] at hsel
    exact absurd hsel (by simp)
  | some p => exact ⟨p.1, p.2, by simp [hsel]⟩

/-- Full specification of the locator selection on one matrix: the selected
entry is true, its frame is the global minimum over all true entries, and its
condition index is minimal among the true entries at that frame. -/
theorem selectFirstTrue_spec {m : List (List Bool)} {c f : Nat}
    (h : selectFirstTrue m = some (c, f)) :
    (m.getD c []).getD f false = true
      ∧ (∀ c' f', (m.getD c' []).getD f' false = true → f ≤ f')
      ∧ (∀ c' f', (m.getD c' []).getD f' false = true → f' = f → c ≤ c') := by
  rw [selectFirstTrue] at h
  refine ⟨npWhere2D_mem.mp (selPair_mem h), ?_, ?_⟩
  · intro c' f' hcf
    exact selPair_snd_le h (c', f') (npWhere2D_mem.mpr hcf)
  · intro c' f' hcf hf
    exact selPair_fst_min (npWhere2D_sorted m) h (c', f') (npWhere2D_mem.mpr hcf) hf

/-! ## The condition evaluator -/

theorem rebuildResults_eq {α : Type} (t : α) (conds : List (Cond α)) :
    rebuildResults t conds ((conds.filter (fun c => c.2)).map (fun c => c.1 t))
      = conds.map (fun c => c.1 t) := by
  induction conds with
  | nil => simp [rebuildResults]
  | cons c rest ih =>
    by_cases hc : c.2
    · rw [List.filter_cons_of_pos (by simpa using hc), List.map_cons, rebuildResults]
      simp only [hc, if_true, List.headD_cons, List.tail_cons]
      rw [ih, List.map_cons]
    · rw [List.filter_cons_of_neg (by simpa using hc), rebuildResults, ih]
      simp [hc]

/-- The evaluator always returns exactly the value of condition `i` at
position `i`, whatever mix of coroutine and plain callables is given. -/
theorem _condition_vals_for_traj_eq {α : Type} (conds : List (Cond α)) (t : α) :
    _condition_vals_for_traj conds t = conds.map (fun c => c.1 t) := by
  rw [_condition_vals_for_traj]
  by_cases h1 : conds.all (fun c => c.2)
  · rw [if_pos h1]
  · rw [if_neg h1]
    by_cases h2 : conds.any (fun c => c.2)
    · rw [if_neg (by simpa using h2)]
      exact rebuildResults_eq t conds
    · rw [if_pos (by simpa using h2)]

/-! ## Computed forms of the slice selections -/

theorem range_map_sub_eq_reverse (n : Nat) :
    (List.range (n + 1)).map (fun k => n - k) = (List.range (n + 1)).reverse := by
  apply List.ext_getElem
  · simp
  · intro i h1 h2
    simp only [List.getElem_map, List.getElem_range, List.getElem_reverse,
      List.length_map, List.length_range]
    omega

/-- Slice `(m, None, -1)` on a part of length `L > m`: frames `m, m-1, ..., 0`. -/
theorem sliceIndices_back_from {L m : Nat} (h : m < L) :
    sliceIndices L (m : Int) none (-1 : Int) = (List.range (m + 1)).reverse := by
  have hs : normBwd L (m : Int) = (m : Int) := by
    rw [normBwd, if_neg (by omega)]
    omega
  rw [sliceIndices, if_neg (by decide), if_pos rfl, hs,
    show normStopBwd L none = (-1 : Int) from rfl]
  rw [show ((m : Int) - (-1 : Int)).toNat = m + 1 by omega]
  have hmap : (List.range (m + 1)).map (fun (k : Nat) => ((m : Int) - (k : Int)).toNat)
      = (List.range (m + 1)).map (fun k => m - k) := by
    apply List.map_congr_left
    intro k hk
    have hk2 : k < m + 1 := List.mem_range.mp hk
    omega
  rw [hmap]
  exact range_map_sub_eq_reverse m

/-- Slice `(-1, None, -1)` on a part of length `L`: the whole part reversed. -/
theorem sliceIndices_back_full (L : Nat) :
    sliceIndices L (-1 : Int) none (-1 : Int) = (List.range L).reverse := by
  cases L with
  | zero =>
    rw [sliceIndices, if_neg (by decide), if_pos rfl]
    rw [show normBwd 0 (-1 : Int) = (-1 : Int) by rw [normBwd, if_pos (by omega)]; simp]
    rw [show normStopBwd 0 none = (-1 : Int) from rfl]
    simp
  | succ n =>
    have hs : normBwd (n + 1) (-1 : Int) = (n : Int) := by
      rw [normBwd, if_pos (by omega)]
      push_cast
      omega
    rw [sliceIndices, if_neg (by decide), if_pos rfl, hs,
      show normStopBwd (n + 1) none = (-1 : Int) from rfl]
    rw [show ((n : Int) - (-1 : Int)).toNat = n + 1 by omega]
    have hmap : (List.range (n + 1)).map (fun (k : Nat) => ((n : Int) - (k : Int)).toNat)
        = (List.range (n + 1)).map (fun k => n - k) := by
      apply List.map_congr_left
      intro k hk
      have hk2 : k < n + 1 := List.mem_range.mp hk
      omega
    rw [hmap]
    exact range_map_sub_eq_reverse n

/-- Slice `(0, c, 1)` with `c ≤ L`: frames `0, ..., c-1`. -/
theorem sliceIndices_fwd_take {L c : Nat} (h : c ≤ L) :
    sliceIndices L 0 (some (c : Int)) 1 = List.range c := by
  have hs : normFwd L (0 : Int) = 0 := by
    rw [normFwd, if_neg (by omega)]
    omega
  have ht : normStopFwd L (some (c : Int)) = (c : Int) := by
    show normFwd L (c : Int) = (c : Int)
    rw [normFwd, if_neg (by omega)]
    omega
  rw [sliceIndices, if_pos rfl, hs, ht]
  rw [show ((c : Int) - 0).toNat = c by omega]
  have hmap : (List.range c).map (fun (k : Nat) => ((0 : Int) + (k : Int)).toNat)
      = (List.range c).map (fun k => k) := by
    apply List.map_congr_left
    intro k hk
    omega
  rw [hmap]
  simp

/-- Slice `(0, None, 1)`: the whole part, forwards. -/
theorem sliceIndices_fwd_full (L : Nat) :
    sliceIndices L 0 none 1 = List.range L := by
  have hs : normFwd L (0 : Int) = 0 := by
    rw [normFwd, if_neg (by omega)]
    omega
  rw [sliceIndices, if_pos rfl, hs, show normStopFwd L none = (L : Int) from rfl]
  rw [show ((L : Int) - 0).toNat = L by omega]
  have hmap : (List.range L).map (fun (k : Nat) => ((0 : Int) + (k : Int)).toNat)
      = (List.range L).map (fun k => k) := by
    apply List.map_congr_left
    intro k hk
    omega
  rw [hmap]
  simp

/-- Slice `(1, None, 1)` on a non-empty part: frames `1, ..., L-1`
(the shared starting frame 0 is excluded). -/
theorem sliceIndices_fwd_from1 {L : Nat} (h : 1 ≤ L) :
    sliceIndices L 1 none 1 = (List.range (L - 1)).map (fun k => k + 1) := by
  have hs : normFwd L (1 : Int) = 1 := by
    rw [normFwd, if_neg (by omega)]
    omega
  rw [sliceIndices, if_pos rfl, hs, show normStopFwd L none = (L : Int) from rfl]
  rw [show ((L : Int) - 1).toNat = L - 1 by omega]
  apply List.map_congr_left
  intro k hk
  omega

/-- Slice `(1, p + 1, 1)` with `p + 1 ≤ L`: frames `1, ..., p`
(the shared starting frame 0 is excluded, the state frame `p` included). -/
theorem sliceIndices_fwd_one_to {L p : Nat} (hL : p + 1 ≤ L) :
    sliceIndices L 1 (some ((p : Int) + 1)) 1 = (List.range p).map (fun k => k + 1) := by
  have hs : normFwd L (1 : Int) = 1 := by
    rw [normFwd, if_neg (by omega)]
    omega
  have ht : normStopFwd L (some ((p : Int) + 1)) = (p : Int) + 1 := by
    show normFwd L ((p : Int) + 1) = (p : Int) + 1
    rw [normFwd, if_neg (by omega)]
    omega
  rw [sliceIndices, if_pos rfl, hs, ht]
  rw [show ((p : Int) + 1 - 1).toNat = p by omega]
  apply List.map_congr_left
  intro k hk
  omega

/-! ## Plan selection lemmas -/

theorem planSelectionsFrom_append {α : Type} (len : α → Nat)
    (l1 l2 : List (α × Slice)) (pos : Nat) :
    planSelectionsFrom len (l1 ++ l2) pos
      = planSelectionsFrom len l1 pos ++ planSelectionsFrom len l2 (pos + l1.length) := by
  induction l1 generalizing pos with
  | nil => simp [planSelectionsFrom]
  | cons ts rest ih =>
    obtain ⟨t, sl⟩ := ts
    rw [List.cons_append, planSelectionsFrom, planSelectionsFrom, ih, List.append_assoc,
      List.length_cons, show pos + (rest.length + 1) = (pos + 1) + rest.length by omega]

theorem planSelectionsFrom_length {α : Type} (len : α → Nat)
    (l : List (α × Slice)) (pos : Nat) :
    (planSelectionsFrom len l pos).length
      = (l.map (fun ts => (sliceIndices (len ts.1) ts.2.1 ts.2.2.1 ts.2.2.2).length)).sum := by
  induction l generalizing pos with
  | nil => simp [planSelectionsFrom]
  | cons ts rest ih =>
    obtain ⟨t, sl⟩ := ts
    simp [planSelectionsFrom, ih]

theorem planSelectionsFrom_fst_ge {α : Type} {len : α → Nat}
    {l : List (α × Slice)} {pos : Nat} {q : Nat × Nat}
    (h : q ∈ planSelectionsFrom len l pos) : pos ≤ q.1 := by
  induction l generalizing pos with
  | nil => simp [planSelectionsFrom] at h
  | cons ts rest ih =>
    obtain ⟨t, sl⟩ := ts
    rcases List.mem_append.mp h with hm | hm
    · obtain ⟨fr, _, rfl⟩ := List.mem_map.mp hm
      simp
    · have := ih hm
      omega

/-- Counting the selections of a fixed (position, frame) pair: only the plan
entry at that position contributes, and it contributes once per occurrence of
the frame in its slice's index list. -/
theorem count_map_pair (pos fr : Nat) (l : List Nat) :
    (l.map (fun fr0 => (pos, fr0))).count (pos, fr) = l.count fr := by
  induction l with
  | nil => simp
  | cons x xs ih =>
    rw [List.map_cons, List.count_cons, List.count_cons, ih]
    by_cases hx : x = fr
    · simp [hx]
    · simp [hx]

theorem planSelectionsFrom_count {α : Type} [Inhabited α] (len : α → Nat)
    (l : List (α × Slice)) (pos j fr : Nat) (hj : j < l.length) :
    (planSelectionsFrom len l pos).count (pos + j, fr)
      = (sliceIndices (len (l.getD j default).1) (l.getD j default).2.1
          (l.getD j default).2.2.1 (l.getD j default).2.2.2).count fr := by
  induction l generalizing pos j with
  | nil => simp at hj
  | cons ts rest ih =>
    obtain ⟨t, sl⟩ := ts
    rw [planSelectionsFrom, List.count_append]
    cases j with
    | zero =>
      have h1 : (List.map (fun fr => (pos, fr))
            (sliceIndices (len t) sl.1 sl.2.1 sl.2.2)).count (pos + 0, fr)
          = (sliceIndices (len t) sl.1 sl.2.1 sl.2.2).count fr := by
        rw [show pos + 0 = pos by omega]
        exact count_map_pair pos fr _
      have h2 : (planSelectionsFrom len rest (pos + 1)).count (pos + 0, fr) = 0 := by
        rw [List.count_eq_zero]
        intro hmem
        have := planSelectionsFrom_fst_ge hmem
        simp at this
      rw [h1, h2]
      simp [List.getD_cons_zero]
    | succ j' =>
      have h1 : (List.map (fun fr => (pos, fr))
            (sliceIndices (len t) sl.1 sl.2.1 sl.2.2)).count (pos + (j' + 1), fr) = 0 := by
        rw [List.count_eq_zero]
        intro hmem
        obtain ⟨fr0, _, heq⟩ := List.mem_map.mp hmem
        have := congrArg Prod.fst heq
        simp at this
      have h2 := ih (pos + 1) j' (by
        have hj2 := hj
        simp only [List.length_cons] at hj2
        omega)
      rw [h1, show pos + (j' + 1) = (pos + 1) + j' by omega, h2]
      simp [List.getD_cons_succ]

/-! ## Specification of the full locator -/

theorem anyTrue_concat_of_exists {nConds : Nat} {condVals : List (List (List Bool))}
    (hcons : ConsistentVals nConds condVals)
    (hex : ∃ seg ∈ condVals, ∃ row ∈ seg, true ∈ row) :
    anyTrue (concatAxis1 condVals nConds) = true := by
  obtain ⟨seg, hseg, row, hrow, htrue⟩ := hex
  obtain ⟨c, hc, hrowc⟩ := List.mem_iff_getElem.mp hrow
  have hcn : c < nConds := (hcons seg hseg).1 ▸ hc
  have hrowd : seg.getD c [] = row := by
    rw [List.getD_eq_getElem _ _ hc, hrowc]
  have hmem : row ∈ condVals.map (fun m => m.getD c []) := by
    rw [← hrowd]
    exact List.mem_map_of_mem _ hseg
  have hflat : true ∈ (condVals.map (fun m => m.getD c [])).flatten :=
    List.mem_flatten.mpr ⟨row, hmem, htrue⟩
  obtain ⟨f, hf⟩ := mem_true_iff_getD.mp hflat
  apply anyTrue_iff_exists.mpr
  refine ⟨c, f, ?_⟩
  rw [concatAxis1_getD hcn]
  exact hf

theorem exists_of_anyTrue_concat {nConds : Nat} {condVals : List (List (List Bool))}
    (h : anyTrue (concatAxis1 condVals nConds) = true) :
    ∃ seg ∈ condVals, ∃ row ∈ seg, true ∈ row := by
  obtain ⟨c, f, hcf⟩ := anyTrue_iff_exists.mp h
  by_cases hcn : c < nConds
  · rw [concatAxis1_getD hcn] at hcf
    have hflat : true ∈ (condVals.map (fun m => m.getD c [])).flatten :=
      mem_true_iff_getD.mpr ⟨f, hcf⟩
    obtain ⟨sub, hsub, htrue⟩ := List.mem_flatten.mp hflat
    obtain ⟨seg, hseg, rfl⟩ := List.mem_map.mp hsub
    have hlt : c < seg.length := by
      apply getD_lt_length_of_ne
      intro hnil
      rw [hnil] at htrue
      simp at htrue
    exact ⟨seg, hseg, seg.getD c [], getD_mem_of_lt hlt _, htrue⟩
  · rw [concatAxis1_getD_of_ge (by omega)] at hcf
    simp at hcf

/-- Full behaviour of the locator on consistent inputs with at least one true
entry: the selected pair is first-true (minimal frame, then minimal condition
index), and the cumulative walk decomposes the global frame with
`sum(part_lens[:last_part_idx]) + local = global`, in bounds. -/
theorem locate_spec {nConds : Nat} {condVals : List (List (List Bool))}
    (hcons : ConsistentVals nConds condVals)
    (hex : ∃ seg ∈ condVals, ∃ row ∈ seg, true ∈ row) :
    ∃ c f j loc, locate condVals nConds = some (c, f, j, loc)
      ∧ (((concatAxis1 condVals nConds).getD c []).getD f false = true)
      ∧ (∀ c' f', ((concatAxis1 condVals nConds).getD c' []).getD f' false = true → f ≤ f')
      ∧ (∀ c' f', ((concatAxis1 condVals nConds).getD c' []).getD f' false = true →
          f' = f → c ≤ c')
      ∧ j < condVals.length
      ∧ loc < (condVals.map (fun cv => (cv.headD []).length)).getD j 0
      ∧ ((condVals.map (fun cv => (cv.headD []).length)).take j).sum + loc = f := by
  have hany := anyTrue_concat_of_exists hcons hex
  obtain ⟨c, f, hsel⟩ := selectFirstTrue_isSome hany
  obtain ⟨h1, h2, h3⟩ := selectFirstTrue_spec hsel
  have hcn : c < nConds := by
    by_contra hge
    rw [concatAxis1_getD_of_ge (by omega)] at h1
    simp at h1
  have hflt : f < (condVals.map (fun cv => (cv.headD []).length)).sum := by
    have hf1 : f < ((concatAxis1 condVals nConds).getD c []).length :=
      getD_true_lt_length h1
    rwa [concatAxis1_row_length hcons hcn] at hf1
  have hfp : (findPart (condVals.map (fun cv => (cv.headD []).length)) f).isSome :=
    findPart_isSome_iff.mpr hflt
  obtain ⟨⟨j, loc⟩, hfp⟩ := Option.isSome_iff_exists.mp hfp
  obtain ⟨hj, hloc, hsum⟩ := findPart_spec hfp
  refine ⟨c, f, j, loc, ?_, h1, h2, h3, by simpa using hj, hloc, hsum⟩
  simp only [locate, hsel, hfp]

/-! ## From trajectories and conditions to consistent matrices -/

theorem condVals_consistent {α : Type} (len : α → Nat) (conds : List (Cond α))
    (trajs : List α)
    (hlen : ∀ t ∈ trajs, ∀ c ∈ conds, (c.1 t).length = len t) :
    ConsistentVals conds.length (trajs.map (_condition_vals_for_traj conds)) := by
  intro seg hseg
  obtain ⟨t, ht, rfl⟩ := List.mem_map.mp hseg
  rw [_condition_vals_for_traj_eq]
  refine ⟨by simp, ?_⟩
  intro row hrow
  obtain ⟨c, hc, rfl⟩ := List.mem_map.mp hrow
  cases conds with
  | nil => simp at hc
  | cons c0 cs =>
    rw [List.map_cons, List.headD_cons, hlen t ht c hc, hlen t ht c0 (by simp)]

theorem condVals_partLens {α : Type} (len : α → Nat) (conds : List (Cond α))
    (trajs : List α)
    (hlen : ∀ t ∈ trajs, ∀ c ∈ conds, (c.1 t).length = len t) (hne : conds ≠ []) :
    (trajs.map (_condition_vals_for_traj conds)).map (fun cv => (cv.headD []).length)
      = trajs.map len := by
  rw [List.map_map]
  apply List.map_congr_left
  intro t ht
  show ((_condition_vals_for_traj conds t).headD []).length = len t
  rw [_condition_vals_for_traj_eq]
  cases conds with
  | nil => exact absurd rfl hne
  | cons c0 cs =>
    rw [List.map_cons, List.headD_cons]
    exact hlen t ht c0 (by simp)

theorem condVals_exists_true {α : Type} {conds : List (Cond α)} {trajs : List α}
    (hex : ∃ t ∈ trajs, ∃ c ∈ conds, true ∈ c.1 t) :
    ∃ seg ∈ trajs.map (_condition_vals_for_traj conds), ∃ row ∈ seg, true ∈ row := by
  obtain ⟨t, ht, c, hc, htrue⟩ := hex
  refine ⟨_condition_vals_for_traj conds t, List.mem_map_of_mem _ ht, c.1 t, ?_, htrue⟩
  rw [_condition_vals_for_traj_eq]
  exact List.mem_map_of_mem _ hc

theorem condVals_exists_true_rev {α : Type} {conds : List (Cond α)} {trajs : List α}
    (hex : ∃ seg ∈ trajs.map (_condition_vals_for_traj conds), ∃ row ∈ seg, true ∈ row) :
    ∃ t ∈ trajs, ∃ c ∈ conds, true ∈ c.1 t := by
  obtain ⟨seg, hseg, row, hrow, htrue⟩ := hex
  obtain ⟨t, ht, rfl⟩ := List.mem_map.mp hseg
  rw [_condition_vals_for_traj_eq] at hrow
  obtain ⟨c, hc, rfl⟩ := List.mem_map.mp hrow
  exact ⟨t, ht, c, hc, htrue⟩

theorem concatAxis1_singleton (cv : List (List Bool)) :
    concatAxis1 [cv] cv.length = cv := by
  apply List.ext_getElem
  · simp [concatAxis1]
  · intro i h1 h2
    have hgd : (concatAxis1 [cv] cv.length).getD i [] = cv.getD i [] := by
      rw [concatAxis1_getD h2]
      show cv.getD i [] ++ ([] : List (List Bool)).flatten = cv.getD i []
      simp
    rw [← List.getD_eq_getElem (concatAxis1 [cv] cv.length) [] h1,
      ← List.getD_eq_getElem cv [] h2]
    exact hgd

/-! ## Claim theorems -/

/-- C1: for every ordered list of segments with consistent per-segment
condition matrices in which at least one entry is True, the locator logic (as
run by `cut_and_concatenate` through `locate`, and by `propagate` on its last
segment through `selectFirstTrue`) selects the smallest global frame index
along the concatenated frame axis at which any condition is True, the lowest
condition index when several conditions are True at that frame, and
decomposes that global frame into (segment index, local frame index) such
that the sum of the lengths of all earlier segments plus the local frame
index equals the global frame index. -/
theorem C1_locator_first_true_frame {nConds : Nat} {condVals : List (List (List Bool))}
    (hcons : ConsistentVals nConds condVals)
    (hex : ∃ seg ∈ condVals, ∃ row ∈ seg, true ∈ row) :
    (∃ c f j loc, locate condVals nConds = some (c, f, j, loc)
      ∧ ((concatAxis1 condVals nConds).getD c []).getD f false = true
      ∧ (∀ c' f', ((concatAxis1 condVals nConds).getD c' []).getD f' false = true → f ≤ f')
      ∧ (∀ c' f', ((concatAxis1 condVals nConds).getD c' []).getD f' false = true →
          f' = f → c ≤ c')
      ∧ ((condVals.map (fun cv => (cv.headD []).length)).take j).sum + loc = f)
    ∧ (∀ (cv : List (List Bool)) (c f : Nat), selectFirstTrue cv = some (c, f) →
        (cv.getD c []).getD f false = true
        ∧ (∀ c' f', (cv.getD c' []).getD f' false = true → f ≤ f')
        ∧ (∀ c' f', (cv.getD c' []).getD f' false = true → f' = f → c ≤ c')) := by
  constructor
  · obtain ⟨c, f, j, loc, h0, h1, h2, h3, _, _, hsum⟩ := locate_spec hcons hex
    exact ⟨c, f, j, loc, h0, h1, h2, h3, hsum⟩
  · intro cv c f hsel
    exact selectFirstTrue_spec hsel

theorem C1_witness :
    (∃ c f j loc,
      locate [[[false, false], [false, true]], [[true, false], [false, false]]] 2
        = some (c, f, j, loc)
      ∧ ((concatAxis1 [[[false, false], [false, true]], [[true, false], [false, false]]] 2).getD c []).getD f false = true
      ∧ (∀ c' f', ((concatAxis1 [[[false, false], [false, true]], [[true, false], [false, false]]] 2).getD c' []).getD f' false = true → f ≤ f')
      ∧ (∀ c' f', ((concatAxis1 [[[false, false], [false, true]], [[true, false], [false, false]]] 2).getD c' []).getD f' false = true → f' = f → c ≤ c')
      ∧ (([[[false, false], [false, true]], [[true, false], [false, false]]].map
            (fun cv => (cv.headD []).length)).take j).sum + loc = f)
    ∧ (∀ (cv : List (List Bool)) (c f : Nat), selectFirstTrue cv = some (c, f) →
        (cv.getD c []).getD f false = true
        ∧ (∀ c' f', (cv.getD c' []).getD f' false = true → f ≤ f')
        ∧ (∀ c' f', (cv.getD c' []).getD f' false = true → f' = f → c ≤ c')) :=
  C1_locator_first_true_frame (by unfold ConsistentVals; decide) (by decide)

/-- C10: `cut_and_concatenate` is well-defined exactly when some (condition,
frame) entry is True: with at least one True entry the selection is over a
non-empty set and the cumulative walk ends at a segment index strictly below
the number of segments with a local frame index inside that segment, so the
plan is built (`isSome`); with no True entry the operation fails
(`np.argmin` of an empty array), returning `none` instead of a trajectory. -/
theorem C10_cut_and_concatenate_safety {α : Type} [Inhabited α] (len : α → Nat)
    (conds : List (Cond α)) (trajs : List α)
    (hlen : ∀ t ∈ trajs, ∀ c ∈ conds, (c.1 t).length = len t) :
    ((∃ t ∈ trajs, ∃ c ∈ conds, true ∈ c.1 t) →
      ∃ cond f j loc,
        locate (trajs.map (_condition_vals_for_traj conds)) conds.length
          = some (cond, f, j, loc)
        ∧ j < trajs.length ∧ loc < len (trajs.getD j default)
        ∧ (cut_and_concatenate conds trajs).isSome)
    ∧ ((¬ ∃ t ∈ trajs, ∃ c ∈ conds, true ∈ c.1 t) →
        cut_and_concatenate conds trajs = none) := by
  constructor
  · intro hex
    have hne : conds ≠ [] := by
      obtain ⟨t, _, c, hc, _⟩ := hex
      intro hnil
      rw [hnil] at hc
      simp at hc
    have hcons := condVals_consistent len conds trajs hlen
    have hex2 := condVals_exists_true hex
    obtain ⟨c, f, j, loc, h0, _, _, _, hj, hloc, _⟩ := locate_spec hcons hex2
    have hjt : j < trajs.length := by simpa using hj
    have hpl := condVals_partLens len conds trajs hlen hne
    rw [hpl] at hloc
    rw [getD_map_of_lt hjt 0 default] at hloc
    refine ⟨c, f, j, loc, h0, hjt, hloc, ?_⟩
    simp [cut_and_concatenate, h0]
  · intro hnex
    have hanyf : anyTrue (concatAxis1 (trajs.map (_condition_vals_for_traj conds))
        conds.length) = false := by
      cases hany : anyTrue (concatAxis1 (trajs.map (_condition_vals_for_traj conds))
          conds.length) with
      | false => rfl
      | true =>
        exact absurd (condVals_exists_true_rev (exists_of_anyTrue_concat hany)) hnex
    have hsel := selectFirstTrue_eq_none_iff.mpr hanyf
    simp [cut_and_concatenate, locate, hsel]

theorem C10_witness :
    ((∃ t ∈ [5], ∃ c ∈ [((fun (_ : Nat) => [false, true]), true)], true ∈ c.1 t) →
      ∃ cond f j loc,
        locate ([5].map (_condition_vals_for_traj [((fun (_ : Nat) => [false, true]), true)])) 1
          = some (cond, f, j, loc)
        ∧ j < [5].length ∧ loc < (fun (_ : Nat) => 2) ([5].getD j default)
        ∧ (cut_and_concatenate [((fun (_ : Nat) => [false, true]), true)] [5]).isSome)
    ∧ ((¬ ∃ t ∈ [5], ∃ c ∈ [((fun (_ : Nat) => [false, true]), true)], true ∈ c.1 t) →
        cut_and_concatenate [((fun (_ : Nat) => [false, true]), true)] [5] = none) :=
  C10_cut_and_concatenate_safety (fun _ => 2)
    [((fun (_ : Nat) => [false, true]), true)] [5] (by decide)

/-- C3: for every segment list and located address `(j, loc)`,
`cut_and_concatenate` builds the plan of `j` full forward slices
`(0, None, 1)` followed by the terminal slice `(0, loc + 1, 1)`, and passes
exactly the segments `trajs[:j + 1]` to the concatenator. -/
theorem C3_slice_plan_shape {α : Type} (conds : List (Cond α)) (trajs : List α)
    {c f j loc : Nat}
    (h : locate (trajs.map (_condition_vals_for_traj conds)) conds.length
        = some (c, f, j, loc)) :
    cut_and_concatenate conds trajs
      = some (trajs.take (j + 1),
          List.replicate j (((0 : Int), (none : Option Int), (1 : Int)) : Slice)
            ++ [(((0 : Int), some ((loc : Int) + 1), (1 : Int)) : Slice)],
          c) := by
  cases j with
  | zero => simp [cut_and_concatenate, h]
  | succ j' => simp [cut_and_concatenate, h]

theorem C3_witness :
    cut_and_concatenate
        [((fun (t : Nat) => if t = 8 then [true, false] else [false, false]), true)]
        [7, 8]
      = some ([7, 8].take (1 + 1),
          List.replicate 1 (((0 : Int), (none : Option Int), (1 : Int)) : Slice)
            ++ [(((0 : Int), some ((0 : Int) + 1), (1 : Int)) : Slice)],
          0) :=
  C3_slice_plan_shape
    [((fun (t : Nat) => if t = 8 then [true, false] else [false, false]), true)]
    [7, 8]
    (show locate
        ([7, 8].map (_condition_vals_for_traj
          [((fun (t : Nat) => if t = 8 then [true, false] else [false, false]), true)]))
        [((fun (t : Nat) => if t = 8 then [true, false] else [false, false]), true)].length
      = some (0, 2, 1, 0) by decide)

/-- C9: step-budget resolution of `__init__`: an explicit `max_steps` is used
(also when `max_frames` is given), else `max_frames * nstout`, else the
budget is unbounded (`np.inf`): no finite step count ever exceeds it. -/
theorem C9_step_budget_resolution :
    (∀ (ms : Nat) (mf : Option Nat) (nstout : Nat),
        resolveMaxSteps (some ms) mf nstout = some ms)
    ∧ (∀ (mf nstout : Nat), resolveMaxSteps none (some mf) nstout = some (mf * nstout))
    ∧ (∀ (nstout : Nat), resolveMaxSteps none none nstout = none)
    ∧ (∀ (sc : Nat), leBudget sc none = true) :=
  ⟨fun _ _ _ => rfl, fun _ _ => rfl, fun _ => rfl, fun _ => rfl⟩

/-- C8: for every condition list mixing synchronous and asynchronous
callables, `_condition_vals_for_traj` returns one list whose order matches
the input condition order: the entry at index `i` is the value produced by
condition `i`.  Completion order of the asynchronous conditions cannot
influence this: `asyncio.gather` returns its results in argument order, which
is how the gather step is modelled. -/
theorem C8_condition_evaluator_order {α : Type} (conds : List (Cond α)) (t : α) :
    _condition_vals_for_traj conds t = conds.map (fun c => c.1 t)
    ∧ ∀ (i : Nat), i < conds.length →
        (_condition_vals_for_traj conds t).getD i [] = (conds.getD i default).1 t := by
  refine ⟨_condition_vals_for_traj_eq conds t, ?_⟩
  intro i hi
  rw [_condition_vals_for_traj_eq]
  exact getD_map_of_lt hi [] default

theorem C8_witness :
    _condition_vals_for_traj
        [((fun (_ : Nat) => [true]), false), ((fun (_ : Nat) => [false]), true),
         ((fun (_ : Nat) => [true, true]), false)] 0
      = [((fun (_ : Nat) => [true]), false), ((fun (_ : Nat) => [false]), true),
         ((fun (_ : Nat) => [true, true]), false)].map (fun c => c.1 0)
    ∧ (_condition_vals_for_traj
        [((fun (_ : Nat) => [true]), false), ((fun (_ : Nat) => [false]), true),
         ((fun (_ : Nat) => [true, true]), false)] 0).getD 1 []
      = ([((fun (_ : Nat) => [true]), false), ((fun (_ : Nat) => [false]), true),
          ((fun (_ : Nat) => [true, true]), false)].getD 1 default).1 0 :=
  ⟨(C8_condition_evaluator_order
      [((fun (_ : Nat) => [true]), false), ((fun (_ : Nat) => [false]), true),
       ((fun (_ : Nat) => [true, true]), false)] 0).1,
   (C8_condition_evaluator_order
      [((fun (_ : Nat) => [true]), false), ((fun (_ : Nat) => [false]), true),
       ((fun (_ : Nat) => [true, true]), false)] 0).2 1 (by decide)⟩

/-- C5: for a single-segment propagation whose first condition-satisfying
frame is at local frame `k`, the slice plan built by `cut_and_concatenate` is
the single slice `(0, k + 1, 1)` over that segment, which selects exactly the
frames `0 .. k`, so the stitched output trajectory has exactly `k + 1`
frames. -/
theorem C5_single_segment_roundtrip {α : Type} (len : α → Nat)
    (conds : List (Cond α)) (t : α) {c0 k : Nat}
    (hlen : ∀ cf ∈ conds, (cf.1 t).length = len t)
    (hne : conds ≠ [])
    (hsel : selectFirstTrue (_condition_vals_for_traj conds t) = some (c0, k)) :
    cut_and_concatenate conds [t]
      = some ([t], [(((0 : Int), some ((k : Int) + 1), (1 : Int)) : Slice)], c0)
    ∧ (planSelections len [t]
        [(((0 : Int), some ((k : Int) + 1), (1 : Int)) : Slice)]).length = k + 1 := by
  have hcvlen : (_condition_vals_for_traj conds t).length = conds.length := by
    rw [_condition_vals_for_traj_eq]
    simp
  have hcat : concatAxis1 [_condition_vals_for_traj conds t] conds.length
      = _condition_vals_for_traj conds t := by
    rw [← hcvlen]
    exact concatAxis1_singleton _
  have hklen : k < len t := by
    obtain ⟨h1, _, _⟩ := selectFirstTrue_spec hsel
    have hk : k < ((_condition_vals_for_traj conds t).getD c0 []).length :=
      getD_true_lt_length h1
    have hc0 : c0 < (_condition_vals_for_traj conds t).length := by
      apply getD_lt_length_of_ne
      intro hnil
      rw [hnil] at h1
      simp at h1
    have hrowmem : (_condition_vals_for_traj conds t).getD c0 []
        ∈ _condition_vals_for_traj conds t := getD_mem_of_lt hc0 _
    rw [_condition_vals_for_traj_eq] at hrowmem hk
    obtain ⟨cf, hcf, heq⟩ := List.mem_map.mp hrowmem
    rw [← heq, hlen cf hcf] at hk
    exact hk
  have hhead : ((_condition_vals_for_traj conds t).headD []).length = len t := by
    rw [_condition_vals_for_traj_eq]
    cases conds with
    | nil => exact absurd rfl hne
    | cons cf cs =>
      rw [List.map_cons, List.headD_cons]
      exact hlen cf (by simp)
  have hfp : findPart ([_condition_vals_for_traj conds t].map
      (fun cv => (cv.headD []).length)) k = some (0, k) := by
    show findPart [((_condition_vals_for_traj conds t).headD []).length] k = some (0, k)
    rw [hhead]
    simp [findPart, hklen]
  have hloc : locate [_condition_vals_for_traj conds t] conds.length
      = some (c0, k, 0, k) := by
    simp only [locate, hcat, hsel, hfp]
  constructor
  · have hmap : [t].map (_condition_vals_for_traj conds)
        = [_condition_vals_for_traj conds t] := rfl
    simp [cut_and_concatenate, hmap, hloc]
  · have hcast : ((k : Int) + 1) = ((k + 1 : Nat) : Int) := by push_cast; ring
    rw [planSelections, show ([t].zip [(((0 : Int), some ((k : Int) + 1), (1 : Int)) : Slice)])
        = [(t, (((0 : Int), some ((k : Int) + 1), (1 : Int)) : Slice))] from rfl]
    rw [planSelectionsFrom, planSelectionsFrom]
    show ((sliceIndices (len t) 0 (some ((k : Int) + 1)) 1).map (fun fr => (0, fr))
        ++ []).length = k + 1
    rw [hcast, sliceIndices_fwd_take (show k + 1 ≤ len t by omega)]
    simp

theorem C5_witness :
    (cut_and_concatenate [((fun (_ : Nat) => [false, false, true, false]), true)] [3]
      = some ([3], [(((0 : Int), some ((2 : Int) + 1), (1 : Int)) : Slice)], 0))
    ∧ (planSelections (fun (_ : Nat) => 4) [3]
        [(((0 : Int), some ((2 : Int) + 1), (1 : Int)) : Slice)]).length = 2 + 1 :=
  C5_single_segment_roundtrip (fun _ => 4)
    [((fun (_ : Nat) => [false, false, true, false]), true)] 3
    (by decide) (List.cons_ne_nil _ _) (by decide)

/-- C6: for every starting configuration already satisfying some condition,
`propagate` performs no propagation at all: the effect trace is empty (no
engine instance created, nothing prepared or recovered, no segment
requested), and the result is the one-segment list `[startConf]` together
with the index of the condition first fulfilled (the lowest condition index
at the smallest True frame). -/
theorem C6_start_already_satisfies {α : Type} (seg : Nat → α) (steps : Nat → Nat)
    (engineStepsDone : Nat) (recovered : List α) (conds : List (Cond α))
    (maxSteps : Option Nat) (startConf : α) (continuation : Bool) (fuel : Nat)
    (hany : anyTrue (_condition_vals_for_traj conds startConf) = true) :
    ∃ c f, selectFirstTrue (_condition_vals_for_traj conds startConf) = some (c, f)
      ∧ propagate seg steps engineStepsDone recovered conds maxSteps startConf
          continuation fuel = ([], some (PropResult.success [startConf] c))
      ∧ ((_condition_vals_for_traj conds startConf).getD c []).getD f false = true
      ∧ (∀ c' f', ((_condition_vals_for_traj conds startConf).getD c' []).getD f' false
            = true → f ≤ f')
      ∧ (∀ c' f', ((_condition_vals_for_traj conds startConf).getD c' []).getD f' false
            = true → f' = f → c ≤ c') := by
  obtain ⟨c, f, hsel⟩ := selectFirstTrue_isSome hany
  obtain ⟨h1, h2, h3⟩ := selectFirstTrue_spec hsel
  refine ⟨c, f, hsel, ?_, h1, h2, h3⟩
  simp [propagate, hany, hsel]

theorem C6_witness :
    ∃ c f,
      selectFirstTrue (_condition_vals_for_traj [((fun (_ : Nat) => [true]), true)] 9)
        = some (c, f)
      ∧ propagate (fun _ => (0 : Nat)) (fun _ => 0) 0 []
          [((fun (_ : Nat) => [true]), true)] none 9 false 3
        = ([], some (PropResult.success [9] c))
      ∧ ((_condition_vals_for_traj [((fun (_ : Nat) => [true]), true)] 9).getD c []).getD
          f false = true
      ∧ (∀ c' f', ((_condition_vals_for_traj [((fun (_ : Nat) => [true]), true)] 9).getD
            c' []).getD f' false = true → f ≤ f')
      ∧ (∀ c' f', ((_condition_vals_for_traj [((fun (_ : Nat) => [true]), true)] 9).getD
            c' []).getD f' false = true → f' = f → c ≤ c') :=
  C6_start_already_satisfies (fun _ => (0 : Nat)) (fun _ => 0) 0 []
    [((fun (_ : Nat) => [true]), true)] none 9 false 3 (by decide)

/-- C7 counterexample: on a continuation call whose starting configuration
already satisfies a condition, `propagate` returns before recovering
anything: with recovered on-disk segments `[1, 2]` (on which a condition is
True as well), the call returns the one-segment list `[9]`, not the
recovered list, and `get_all_traj_parts` is never invoked — so "for every
continuation call, all previously produced segments are recovered ... and
propagate returns exactly the recovered segment list" is false as stated. -/
theorem C7_counterexample :
    propagate (fun _ => (0 : Nat)) (fun _ => 0) 0 [1, 2]
        [((fun (_ : Nat) => [true]), true)] none 9 true 3
      = ([], some (PropResult.success [9] 0))
    ∧ ([9] : List Nat) ≠ [1, 2]
    ∧ Effect.getAllTrajParts ∉ (propagate (fun _ => (0 : Nat)) (fun _ => 0) 0 [1, 2]
        [((fun (_ : Nat) => [true]), true)] none 9 true 3).1 := by
  refine ⟨by decide, by decide, ?_⟩
  intro hmem
  have h1 : (propagate (fun _ => (0 : Nat)) (fun _ => 0) 0 [1, 2]
      [((fun (_ : Nat) => [true]), true)] none 9 true 3).1 = [] := by decide
  rw [h1] at hmem
  simp at hmem

/-- C7 (amended with "whose starting configuration does not already satisfy
any condition"): on such a continuation call the previously produced
segments are recovered and all conditions evaluated on all of them; if any
condition is already True there, `propagate` returns exactly the recovered
segment list and the selected condition index, with neither
`prepare_from_files` nor any segment request in the effect trace; otherwise
`prepare_from_files` is called and stepping starts from the recovered
segment list with the step counter resumed from the engine's `steps_done`. -/
theorem C7_continuation_behaviour {α : Type} (seg : Nat → α) (steps : Nat → Nat)
    (engineStepsDone : Nat) (recovered : List α) (conds : List (Cond α))
    (maxSteps : Option Nat) (startConf : α) (fuel : Nat)
    (hstart : anyTrue (_condition_vals_for_traj conds startConf) = false) :
    (anyTrue (concatAxis1 (recovered.map (_condition_vals_for_traj conds))
        conds.length) = true →
      ∃ c f, selectFirstTrue (concatAxis1 (recovered.map (_condition_vals_for_traj conds))
            conds.length) = some (c, f)
        ∧ propagate seg steps engineStepsDone recovered conds maxSteps startConf true fuel
          = ([Effect.engineCreate, Effect.getAllTrajParts],
             some (PropResult.success recovered c)))
    ∧ (anyTrue (concatAxis1 (recovered.map (_condition_vals_for_traj conds))
        conds.length) = false →
      propagate seg steps engineStepsDone recovered conds maxSteps startConf true fuel
        = (Effect.engineCreate :: Effect.getAllTrajParts :: Effect.prepareFromFiles
            :: (propagateLoop seg steps conds maxSteps fuel recovered engineStepsDone 0).1,
           (propagateLoop seg steps conds maxSteps fuel recovered engineStepsDone 0).2)) := by
  constructor
  · intro hrec
    obtain ⟨c, f, hsel⟩ := selectFirstTrue_isSome hrec
    refine ⟨c, f, hsel, ?_⟩
    simp [propagate, hstart, hrec, hsel]
  · intro hrec
    simp [propagate, hstart, hrec]

theorem C7_witness :
    anyTrue (concatAxis1 ([55].map (_condition_vals_for_traj
        [((fun (t : Nat) => if t = 101 then [false, true] else
            (if t = 55 then [false] else [false, false])), true)])) 1) = false
    ∧ propagate (fun k => (100 + k : Nat)) (fun k => 10 * (k + 1)) 7 [55]
        [((fun (t : Nat) => if t = 101 then [false, true] else
            (if t = 55 then [false] else [false, false])), true)] (some 25) 99 true 10
      = (Effect.engineCreate :: Effect.getAllTrajParts :: Effect.prepareFromFiles
          :: (propagateLoop (fun k => (100 + k : Nat)) (fun k => 10 * (k + 1))
              [((fun (t : Nat) => if t = 101 then [false, true] else
                  (if t = 55 then [false] else [false, false])), true)] (some 25)
              10 [55] 7 0).1,
         (propagateLoop (fun k => (100 + k : Nat)) (fun k => 10 * (k + 1))
              [((fun (t : Nat) => if t = 101 then [false, true] else
                  (if t = 55 then [false] else [false, false])), true)] (some 25)
              10 [55] 7 0).2) :=
  ⟨by decide,
   (C7_continuation_behaviour (fun k => (100 + k : Nat)) (fun k => 10 * (k + 1)) 7 [55]
      [((fun (t : Nat) => if t = 101 then [false, true] else
          (if t = 55 then [false] else [false, false])), true)] (some 25) 99 10
      (by decide)).2 (by decide)⟩

theorem range_map_shift {β : Type} (g : Nat → β) (k n : Nat) :
    (List.range (n + 1)).map (fun i => g (k + i))
      = g k :: (List.range n).map (fun i => g ((k + 1) + i)) := by
  rw [List.range_succ_eq_map, List.map_cons, List.map_map, Nat.add_zero]
  congr 1
  apply List.map_congr_left
  intro i _
  show g (k + (i + 1)) = g ((k + 1) + i)
  congr 1
  omega

/-- Advancing the stepping loop through `n` clean iterations (no condition
fulfilled, budget not exceeded at entry of each): the loop requests segments
`k .. k+n-1`, appends them, and continues at iteration `k + n` with the step
counter updated to the engine's last `steps_done` reading. -/
theorem propagateLoop_advance {α : Type} (seg : Nat → α) (steps : Nat → Nat)
    (conds : List (Cond α)) (maxSteps : Option Nat) :
    ∀ (n k fuel : Nat) (trajs : List α) (sc : Nat),
      (∀ i, i < n → anyTrue (_condition_vals_for_traj conds (seg (k + i))) = false) →
      (∀ i, i < n → leBudget (if i = 0 then sc else steps (k + i - 1)) maxSteps = true) →
      propagateLoop seg steps conds maxSteps (fuel + n) trajs sc k
        = (((List.range n).map (fun i => Effect.runSegment (k + i)))
            ++ (propagateLoop seg steps conds maxSteps fuel
                (trajs ++ (List.range n).map (fun i => seg (k + i)))
                (if n = 0 then sc else steps (k + n - 1)) (k + n)).1,
           (propagateLoop seg steps conds maxSteps fuel
                (trajs ++ (List.range n).map (fun i => seg (k + i)))
                (if n = 0 then sc else steps (k + n - 1)) (k + n)).2) := by
  intro n
  induction n with
  | zero =>
    intro k fuel trajs sc hno hbud
    simp
  | succ n ih =>
    intro k fuel trajs sc hno hbud
    have hb0 : leBudget sc maxSteps = true := by
      have hb := hbud 0 (by omega)
      simpa using hb
    have hk0 : anyTrue (_condition_vals_for_traj conds (seg k)) = false := by
      have hn := hno 0 (by omega)
      rwa [Nat.add_zero] at hn
    have heq1 : propagateLoop seg steps conds maxSteps ((fuel + n) + 1) trajs sc k
        = (Effect.runSegment k ::
            (propagateLoop seg steps conds maxSteps (fuel + n)
              (trajs ++ [seg k]) (steps k) (k + 1)).1,
           (propagateLoop seg steps conds maxSteps (fuel + n)
              (trajs ++ [seg k]) (steps k) (k + 1)).2) := by
      rw [propagateLoop, if_pos hb0]
      simp [hk0]
    have hno2 : ∀ i, i < n →
        anyTrue (_condition_vals_for_traj conds (seg ((k + 1) + i))) = false := by
      intro i hi
      have hn := hno (i + 1) (by omega)
      rwa [show k + (i + 1) = (k + 1) + i by omega] at hn
    have hbud2 : ∀ i, i < n →
        leBudget (if i = 0 then steps k else steps ((k + 1) + i - 1)) maxSteps = true := by
      intro i hi
      have hb := hbud (i + 1) (by omega)
      rw [if_neg (by omega)] at hb
      by_cases hi0 : i = 0
      · subst hi0
        rw [if_pos rfl]
        rwa [show k + (0 + 1) - 1 = k by omega] at hb
      · rw [if_neg hi0]
        rwa [show k + (i + 1) - 1 = (k + 1) + i - 1 by omega] at hb
    have ihres := ih (k + 1) fuel (trajs ++ [seg k]) (steps k) hno2 hbud2
    have hmap1 : (List.range (n + 1)).map (fun i => Effect.runSegment (k + i))
        = Effect.runSegment k
            :: (List.range n).map (fun i => Effect.runSegment ((k + 1) + i)) :=
      range_map_shift Effect.runSegment k n
    have hsegs : trajs ++ (List.range (n + 1)).map (fun i => seg (k + i))
        = (trajs ++ [seg k]) ++ (List.range n).map (fun i => seg ((k + 1) + i)) := by
      rw [range_map_shift seg k n, List.append_assoc, List.singleton_append]
    have hsc : (if n + 1 = 0 then sc else steps (k + (n + 1) - 1))
        = (if n = 0 then steps k else steps ((k + 1) + n - 1)) := by
      cases n with
      | zero => simp
      | succ n' =>
        rw [if_neg (by omega), if_neg (by omega)]
        congr 1
        omega
    have hk1 : k + (n + 1) = (k + 1) + n := by omega
    rw [show fuel + (n + 1) = (fuel + n) + 1 by omega, heq1, ihres, hmap1, hsegs, hsc, hk1,
      List.cons_append]

/-- C4: on a run whose starting configuration satisfies no condition,
(1) if the engine's `steps_done` counter exceeds the configured maximum
before any condition becomes True on any produced segment, `propagate`
raises `MaxStepsReachedError` — returning no segment list — and the error
carries both the number of steps produced and the configured maximum;
(2) `propagate` never raises this error when some condition becomes True
before the counter exceeds the maximum: it returns the segment list and a
condition index instead. -/
theorem C4_step_budget {α : Type} (seg : Nat → α) (steps : Nat → Nat)
    (engineStepsDone : Nat) (recovered : List α) (conds : List (Cond α)) (N : Nat)
    (startConf : α)
    (hstart : anyTrue (_condition_vals_for_traj conds startConf) = false) :
    (∀ n fuel, n + 2 ≤ fuel →
      (∀ i, i ≤ n → anyTrue (_condition_vals_for_traj conds (seg i)) = false) →
      (∀ i, i < n → steps i ≤ N) →
      N < steps n →
      propagate seg steps engineStepsDone recovered conds (some N) startConf false fuel
        = (Effect.engineCreate :: Effect.prepare
            :: (List.range (n + 1)).map Effect.runSegment,
           some (PropResult.maxStepsReached (steps n) (some N))))
    ∧ (∀ n fuel, n + 1 ≤ fuel →
      (∀ i, i < n → anyTrue (_condition_vals_for_traj conds (seg i)) = false) →
      (∀ i, i < n → steps i ≤ N) →
      anyTrue (_condition_vals_for_traj conds (seg n)) = true →
      ∃ c f, selectFirstTrue (_condition_vals_for_traj conds (seg n)) = some (c, f)
        ∧ propagate seg steps engineStepsDone recovered conds (some N) startConf false fuel
          = (Effect.engineCreate :: Effect.prepare
              :: (List.range (n + 1)).map Effect.runSegment,
             some (PropResult.success ((List.range (n + 1)).map seg) c))) := by
  have hprop : ∀ fuel, propagate seg steps engineStepsDone recovered conds (some N)
      startConf false fuel
      = (Effect.engineCreate :: Effect.prepare
          :: (propagateLoop seg steps conds (some N) fuel [] 0 0).1,
         (propagateLoop seg steps conds (some N) fuel [] 0 0).2) := by
    intro fuel
    simp [propagate, hstart]
  constructor
  · intro n fuel hfuel hno h1 h2
    have hadv := propagateLoop_advance seg steps conds (some N) (n + 1) 0 (fuel - (n + 1)) [] 0
      (fun i hi => by rw [Nat.zero_add]; exact hno i (by omega))
      (fun i hi => by
        by_cases hi0 : i = 0
        · subst hi0
          simp [leBudget]
        · rw [if_neg hi0, show 0 + i - 1 = i - 1 by omega]
          have hle := h1 (i - 1) (by omega)
          simp only [leBudget, decide_eq_true_eq]
          exact hle)
    rw [show (fuel - (n + 1)) + (n + 1) = fuel by omega] at hadv
    have hfin : propagateLoop seg steps conds (some N) (fuel - (n + 1))
        ([] ++ (List.range (n + 1)).map (fun i => seg (0 + i)))
        (if n + 1 = 0 then 0 else steps (0 + (n + 1) - 1)) (0 + (n + 1))
        = ([], some (PropResult.maxStepsReached (steps n) (some N))) := by
      rw [if_neg (by omega), show 0 + (n + 1) - 1 = n by omega,
        show fuel - (n + 1) = (fuel - (n + 2)) + 1 by omega, propagateLoop,
        if_neg (by simp only [leBudget, decide_eq_true_eq]; omega)]
    rw [hprop fuel, hadv, hfin]
    simp
  · intro n fuel hfuel hno h1 hcond
    obtain ⟨c, f, hsel⟩ := selectFirstTrue_isSome hcond
    refine ⟨c, f, hsel, ?_⟩
    have hadv := propagateLoop_advance seg steps conds (some N) n 0 (fuel - n) [] 0
      (fun i hi => by rw [Nat.zero_add]; exact hno i (by omega))
      (fun i hi => by
        by_cases hi0 : i = 0
        · subst hi0
          simp [leBudget]
        · rw [if_neg hi0, show 0 + i - 1 = i - 1 by omega]
          have hle := h1 (i - 1) (by omega)
          simp only [leBudget, decide_eq_true_eq]
          exact hle)
    rw [show (fuel - n) + n = fuel by omega] at hadv
    have hbn : leBudget (if n = 0 then 0 else steps (0 + n - 1)) (some N) = true := by
      by_cases hn0 : n = 0
      · subst hn0
        simp [leBudget]
      · rw [if_neg hn0, show 0 + n - 1 = n - 1 by omega]
        have hle := h1 (n - 1) (by omega)
        simp only [leBudget, decide_eq_true_eq]
        exact hle
    have hfin : propagateLoop seg steps conds (some N) (fuel - n)
        ([] ++ (List.range n).map (fun i => seg (0 + i)))
        (if n = 0 then 0 else steps (0 + n - 1)) (0 + n)
        = ([Effect.runSegment n],
           some (PropResult.success
             (([] ++ (List.range n).map (fun i => seg (0 + i))) ++ [seg n]) c)) := by
      rw [show fuel - n = (fuel - (n + 1)) + 1 by omega, propagateLoop, if_pos hbn]
      rw [show (0 : Nat) + n = n from Nat.zero_add n]
      simp [hcond, hsel]
    rw [hprop fuel, hadv, hfin]
    simp [List.range_succ]

theorem C4_witness :
    (propagate (fun k => (100 + k : Nat)) (fun k => 10 * (k + 1)) 0 []
        [((fun (_ : Nat) => [false, false]), true)] (some 25) 99 false 4
      = (Effect.engineCreate :: Effect.prepare
          :: (List.range (2 + 1)).map Effect.runSegment,
         some (PropResult.maxStepsReached (10 * (2 + 1)) (some 25))))
    ∧ (∃ c f, selectFirstTrue (_condition_vals_for_traj
          [((fun (t : Nat) => if t = 102 then [false, true] else [false, false]), true)]
          ((fun k => (100 + k : Nat)) 2)) = some (c, f)
        ∧ propagate (fun k => (100 + k : Nat)) (fun k => 10 * (k + 1)) 0 []
            [((fun (t : Nat) => if t = 102 then [false, true] else [false, false]), true)]
            (some 25) 99 false 3
          = (Effect.engineCreate :: Effect.prepare
              :: (List.range (2 + 1)).map Effect.runSegment,
             some (PropResult.success ((List.range (2 + 1)).map
               (fun k => (100 + k : Nat))) c))) :=
  ⟨(C4_step_budget (fun k => (100 + k : Nat)) (fun k => 10 * (k + 1)) 0 []
      [((fun (_ : Nat) => [false, false]), true)] 25 99 (by decide)).1 2 4
      (by omega) (by decide) (by decide) (by decide),
   (C4_step_budget (fun k => (100 + k : Nat)) (fun k => 10 * (k + 1)) 0 []
      [((fun (t : Nat) => if t = 102 then [false, true] else [false, false]), true)] 25 99
      (by decide)).2 2 3 (by omega) (by decide) (by decide) (by decide)⟩

/-! ## Helpers for the two-direction join -/

theorem locate1D_findPart {vals : List (List Bool)} {g j loc : Nat}
    (h : locate1D vals = some (g, j, loc)) :
    findPart (vals.map List.length) g = some (j, loc) := by
  simp only [locate1D] at h
  split at h
  · exact Option.noConfusion h
  · split at h
    · exact Option.noConfusion h
    · rename_i g0 hmin q j0 loc0 hfp
      have hg : g0 = g := congrArg (fun x => x.1) (Option.some.inj h)
      have hj : j0 = j := congrArg (fun x => x.2.1) (Option.some.inj h)
      have hl : loc0 = loc := congrArg (fun x => x.2.2) (Option.some.inj h)
      subst hg
      subst hj
      subst hl
      exact hfp

theorem locate1D_bounds {α : Type} [Inhabited α] {f : α → List Bool} {trajs : List α}
    {g j loc : Nat} (h : locate1D (trajs.map f) = some (g, j, loc)) :
    j < trajs.length ∧ loc < (f (trajs.getD j default)).length := by
  have hfp := locate1D_findPart h
  obtain ⟨h1, h2, _⟩ := findPart_spec hfp
  have hjt : j < trajs.length := by simpa using h1
  refine ⟨hjt, ?_⟩
  rw [getD_map_of_lt (by simpa using hjt) 0 [],
    getD_map_of_lt hjt [] default] at h2
  exact h2

theorem count_zero_range : ∀ {n : Nat}, 0 < n → (List.range n).count 0 = 1 := by
  intro n
  induction n with
  | zero => omega
  | succ m ih =>
    intro _
    rw [List.range_succ, List.count_append]
    cases m with
    | zero => simp
    | succ m' =>
      rw [ih (by omega)]
      simp

theorem getD_zip {β γ : Type} {l1 : List β} {l2 : List γ} {j : Nat}
    (h1 : j < l1.length) (h2 : j < l2.length) (d1 : β) (d2 : γ) :
    (l1.zip l2).getD j (d1, d2) = (l1.getD j d1, l2.getD j d2) := by
  have hz : j < (l1.zip l2).length := by
    rw [List.length_zip]
    omega
  rw [List.getD_eq_getElem _ _ hz, List.getElem_zip, List.getD_eq_getElem _ _ h1,
    List.getD_eq_getElem _ _ h2]

theorem reverse_range_map_getD {β : Type} (g : Nat → β) (d : β) {n i : Nat} (h : i < n) :
    ((List.range n).reverse.map (fun j => g j)).getD i d = g (n - 1 - i) := by
  have hlen : i < ((List.range n).reverse).length := by simpa using h
  rw [getD_map_of_lt hlen d 0, List.getD_eq_getElem _ _ hlen, List.getElem_reverse,
    List.getElem_range]
  simp

/-- No element of a forward slice starting at local frame 1 is frame 0:
the shared starting configuration is excluded from the plus side. -/
theorem zero_not_mem_slice_from1 (L : Nat) (stop : Option Int) :
    0 ∉ sliceIndices L 1 stop 1 := by
  intro hmem
  rw [sliceIndices, if_pos rfl] at hmem
  obtain ⟨k, hk, heq⟩ := List.mem_map.mp hmem
  by_cases hL : 1 ≤ L
  · have hs : normFwd L (1 : Int) = 1 := by
      rw [normFwd, if_neg (by omega)]
      omega
    rw [hs] at heq
    omega
  · have hL0 : L = 0 := by omega
    subst hL0
    have hsf : normStopFwd 0 stop = 0 := by
      cases stop with
      | none => show ((0 : Nat) : Int) = 0; simp
      | some t0 =>
        show normFwd 0 t0 = 0
        rw [normFwd]
        by_cases ht : t0 < 0
        · rw [if_pos ht]
          omega
        · rw [if_neg ht]
          omega
    have hs0 : normFwd 0 (1 : Int) = 0 := by
      rw [normFwd, if_neg (by omega)]
      omega
    rw [hsf, hs0] at hk
    simp at hk

theorem zip_length_lt {β γ : Type} {l1 : List β} {l2 : List γ} {j : Nat}
    (h1 : j < l1.length) (h2 : j < l2.length) : j < (l1.zip l2).length := by
  rw [List.length_zip]
  omega

theorem planSelections_count_at {α : Type} [Inhabited α] (len : α → Nat)
    (trajs : List α) (slices : List Slice) (j fr : Nat)
    (h1 : j < trajs.length) (h2 : j < slices.length) :
    (planSelections len trajs slices).count (j, fr)
      = (sliceIndices (len (trajs.getD j default)) (slices.getD j default).1
          (slices.getD j default).2.1 (slices.getD j default).2.2).count fr := by
  have hz := zip_length_lt h1 h2
  have hc := planSelectionsFrom_count len (trajs.zip slices) 0 j fr hz
  rw [Nat.zero_add] at hc
  have hdef : ((trajs.zip slices).getD j default)
      = (trajs.getD j default, slices.getD j default) :=
    getD_zip h1 h2 (default : α) (default : Slice)
  rw [planSelections, hc, hdef]

/-- C2: the two-direction join.  Given the located minus address (first frame
in the minus state at local frame `m` of minus segment `jm`) and plus address
(local frame `p` of plus segment `kp`),
`construct_TP_from_plus_and_minus_traj_segments` builds the plan in which the
minus segment `jm` is read with stride -1 from `m` down to and including 0,
earlier minus segments are read fully reversed, the plus chain's first
contributing read of its segment 0 starts at local frame 1 — never selecting
frame 0 — so the shared starting configuration (frame 0 of minus segment 0,
sitting at plan position `jm`) is selected exactly once, intermediate plus
segments are read fully, and the terminal plus segment is read forward
through its condition-satisfying frame inclusive; in particular the
minus-[5, 3] / plus-[4] instance with the condition True at minus global
frame 2 and plus local frame 1 selects exactly 4 frames. -/
theorem C2_two_direction_join {α : Type} [Inhabited α] (len : α → Nat)
    (minusFunc plusFunc : α → List Bool) (minusTrajs plusTrajs : List α)
    {gm jm m gp kp p : Nat}
    (hlocM : locate1D (minusTrajs.map minusFunc) = some (gm, jm, m))
    (hlocP : locate1D (plusTrajs.map plusFunc) = some (gp, kp, p))
    (hlenM : ∀ t ∈ minusTrajs, (minusFunc t).length = len t)
    (hlenP : ∀ t ∈ plusTrajs, (plusFunc t).length = len t)
    (h0 : 0 < len (minusTrajs.getD 0 default)) :
    ∃ pt ps,
      construct_TP_from_plus_and_minus_traj_segments minusFunc plusFunc minusTrajs
          plusTrajs = some (pt, ps)
      ∧ pt = (minusTrajs.getD jm default
            :: (List.range jm).reverse.map (fun i => minusTrajs.getD i default))
          ++ (if 0 < kp then
                plusTrajs.getD 0 default
                  :: ((List.range' 1 (kp - 1)).map (fun i => plusTrajs.getD i default)
                      ++ [plusTrajs.getD kp default])
              else [plusTrajs.getD kp default])
      ∧ ps = ((((m : Int), none, (-1 : Int)) : Slice)
            :: (List.range jm).reverse.map (fun _ => (((-1 : Int), none, (-1 : Int)) : Slice)))
          ++ (if 0 < kp then
                (((1 : Int), none, (1 : Int)) : Slice)
                  :: ((List.range' 1 (kp - 1)).map
                        (fun _ => (((0 : Int), none, (1 : Int)) : Slice))
                      ++ [(((0 : Int), some ((p : Int) + 1), (1 : Int)) : Slice)])
              else [(((1 : Int), some ((p : Int) + 1), (1 : Int)) : Slice)])
      ∧ sliceIndices (len (minusTrajs.getD jm default)) (m : Int) none (-1)
          = (List.range (m + 1)).reverse
      ∧ (∀ t : α, sliceIndices (len t) (-1 : Int) none (-1) = (List.range (len t)).reverse)
      ∧ 0 ∉ sliceIndices (len (plusTrajs.getD 0 default)) (1 : Int) none 1
      ∧ 0 ∉ sliceIndices (len (plusTrajs.getD 0 default)) (1 : Int) (some ((p : Int) + 1)) 1
      ∧ pt.getD jm default = minusTrajs.getD 0 default
      ∧ (planSelections len pt ps).count (jm, 0) = 1
      ∧ (∀ t : α, sliceIndices (len t) (0 : Int) none 1 = List.range (len t))
      ∧ (0 < kp → sliceIndices (len (plusTrajs.getD kp default)) (0 : Int)
            (some ((p : Int) + 1)) 1 = List.range (p + 1))
      ∧ (kp = 0 → sliceIndices (len (plusTrajs.getD kp default)) (1 : Int)
            (some ((p : Int) + 1)) 1 = (List.range p).map (fun i => i + 1))
      ∧ ((construct_TP_from_plus_and_minus_traj_segments
            (fun t => if t = 0 then [false, false, true, false, false]
                      else [false, false, false])
            (fun _ => [false, true, false, false])
            ([0, 1] : List Nat) [10]).map (fun pl =>
              (planSelections (fun t => if t = 0 then 5 else if t = 1 then 3 else 4)
                pl.1 pl.2).length)
          = some 4) := by
  obtain ⟨hjmlt, hmlt0⟩ := locate1D_bounds hlocM
  obtain ⟨hkplt, hplt0⟩ := locate1D_bounds hlocP
  have hmlt : m < len (minusTrajs.getD jm default) := by
    rw [← hlenM _ (getD_mem_of_lt hjmlt default)]
    exact hmlt0
  have hplt : p < len (plusTrajs.getD kp default) := by
    rw [← hlenP _ (getD_mem_of_lt hkplt default)]
    exact hplt0
  refine ⟨_, _, ?_, rfl, rfl, sliceIndices_back_from hmlt,
    fun t => sliceIndices_back_full (len t),
    zero_not_mem_slice_from1 _ none,
    zero_not_mem_slice_from1 _ (some ((p : Int) + 1)),
    ?_, ?_,
    fun t => sliceIndices_fwd_full (len t),
    fun _ => by
      rw [show ((p : Int) + 1) = (((p + 1 : Nat)) : Int) by push_cast; ring]
      exact sliceIndices_fwd_take (by omega),
    fun _ => sliceIndices_fwd_one_to (by omega),
    by decide⟩
  · simp only [construct_TP_from_plus_and_minus_traj_segments, hlocM, hlocP]
    by_cases hkp : 0 < kp
    · simp [hkp]
    · simp [hkp]
  · rcases Nat.eq_zero_or_pos jm with hjm0 | hjmpos
    · subst hjm0
      simp
    · obtain ⟨jm', rfl⟩ : ∃ jm', jm = jm' + 1 := ⟨jm - 1, by omega⟩
      rw [List.cons_append, List.getD_cons_succ,
        List.getD_append _ _ _ _ (by simp),
        reverse_range_map_getD (fun i => minusTrajs.getD i default) default
          (by omega : jm' < jm' + 1),
        show jm' + 1 - 1 - jm' = 0 by omega]
  · -- the shared start is selected exactly once
    have hA : (minusTrajs.getD jm default
        :: (List.range jm).reverse.map (fun i => minusTrajs.getD i default)).length
        = jm + 1 := by simp
    have hB : ((((m : Int), none, (-1 : Int)) : Slice)
        :: (List.range jm).reverse.map (fun _ => (((-1 : Int), none, (-1 : Int)) : Slice))).length
        = jm + 1 := by simp
    have hptlen : jm < ((minusTrajs.getD jm default
        :: (List.range jm).reverse.map (fun i => minusTrajs.getD i default))
        ++ (if 0 < kp then
              plusTrajs.getD 0 default
                :: ((List.range' 1 (kp - 1)).map (fun i => plusTrajs.getD i default)
                    ++ [plusTrajs.getD kp default])
            else [plusTrajs.getD kp default])).length := by
      rw [List.length_append, hA]
      omega
    have hpslen : jm < (((((m : Int), none, (-1 : Int)) : Slice)
        :: (List.range jm).reverse.map (fun _ => (((-1 : Int), none, (-1 : Int)) : Slice)))
        ++ (if 0 < kp then
              (((1 : Int), none, (1 : Int)) : Slice)
                :: ((List.range' 1 (kp - 1)).map
                      (fun _ => (((0 : Int), none, (1 : Int)) : Slice))
                    ++ [(((0 : Int), some ((p : Int) + 1), (1 : Int)) : Slice)])
            else [(((1 : Int), some ((p : Int) + 1), (1 : Int)) : Slice)])).length := by
      rw [List.length_append, hB]
      omega
    rw [planSelections_count_at len _ _ jm 0 hptlen hpslen]
    rcases Nat.eq_zero_or_pos jm with hjm0 | hjmpos
    · subst hjm0
      simp only [List.cons_append, List.getD_cons_zero]
      show (sliceIndices (len (minusTrajs.getD 0 default)) (m : Int) none (-1)).count 0 = 1
      rw [sliceIndices_back_from hmlt, List.count_reverse]
      exact count_zero_range (by omega)
    · obtain ⟨jm', rfl⟩ : ∃ jm', jm = jm' + 1 := ⟨jm - 1, by omega⟩
      rw [List.cons_append, List.cons_append, List.getD_cons_succ, List.getD_cons_succ,
        List.getD_append _ _ _ _ (by simp),
        List.getD_append _ _ _ _ (by simp),
        reverse_range_map_getD (fun i => minusTrajs.getD i default) default
          (by omega : jm' < jm' + 1),
        reverse_range_map_getD (fun _ => (((-1 : Int), none, (-1 : Int)) : Slice))
          (default : Slice) (by omega : jm' < jm' + 1),
        show jm' + 1 - 1 - jm' = 0 by omega]
      show (sliceIndices (len (minusTrajs.getD 0 default)) (-1 : Int) none (-1)).count 0 = 1
      rw [sliceIndices_back_full, List.count_reverse]
      exact count_zero_range h0

theorem C2_witness :
    ∃ pt ps,
      construct_TP_from_plus_and_minus_traj_segments
          (fun t => if t = 0 then [false, false, true, false, false]
                    else [false, false, false])
          (fun _ => [false, true, false, false]) ([0, 1] : List Nat) [10]
        = some (pt, ps)
      ∧ pt = (([0, 1] : List Nat).getD 0 default
            :: (List.range 0).reverse.map (fun i => ([0, 1] : List Nat).getD i default))
          ++ (if 0 < 0 then
                ([10] : List Nat).getD 0 default
                  :: ((List.range' 1 (0 - 1)).map (fun i => ([10] : List Nat).getD i default)
                      ++ [([10] : List Nat).getD 0 default])
              else [([10] : List Nat).getD 0 default])
      ∧ ps = ((((2 : Nat) : Int), none, (-1 : Int))
            :: (List.range 0).reverse.map (fun _ => (((-1 : Int), none, (-1 : Int)) : Slice)))
          ++ (if 0 < 0 then
                (((1 : Int), none, (1 : Int)) : Slice)
                  :: ((List.range' 1 (0 - 1)).map
                        (fun _ => (((0 : Int), none, (1 : Int)) : Slice))
                      ++ [(((0 : Int), some (((1 : Nat) : Int) + 1), (1 : Int)) : Slice)])
              else [(((1 : Int), some (((1 : Nat) : Int) + 1), (1 : Int)) : Slice)])
      ∧ sliceIndices ((fun t => if t = 0 then 5 else if t = 1 then 3 else 4)
            (([0, 1] : List Nat).getD 0 default)) ((2 : Nat) : Int) none (-1)
          = (List.range (2 + 1)).reverse
      ∧ (∀ t : Nat, sliceIndices ((fun t => if t = 0 then 5 else if t = 1 then 3 else 4) t)
            (-1 : Int) none (-1)
          = (List.range ((fun t => if t = 0 then 5 else if t = 1 then 3 else 4) t)).reverse)
      ∧ 0 ∉ sliceIndices ((fun t => if t = 0 then 5 else if t = 1 then 3 else 4)
            (([10] : List Nat).getD 0 default)) (1 : Int) none 1
      ∧ 0 ∉ sliceIndices ((fun t => if t = 0 then 5 else if t = 1 then 3 else 4)
            (([10] : List Nat).getD 0 default)) (1 : Int) (some (((1 : Nat) : Int) + 1)) 1
      ∧ pt.getD 0 default = ([0, 1] : List Nat).getD 0 default
      ∧ (planSelections (fun t => if t = 0 then 5 else if t = 1 then 3 else 4) pt ps).count
          (0, 0) = 1
      ∧ (∀ t : Nat, sliceIndices ((fun t => if t = 0 then 5 else if t = 1 then 3 else 4) t)
            (0 : Int) none 1
          = List.range ((fun t => if t = 0 then 5 else if t = 1 then 3 else 4) t))
      ∧ (0 < 0 → sliceIndices ((fun t => if t = 0 then 5 else if t = 1 then 3 else 4)
            (([10] : List Nat).getD 0 default)) (0 : Int) (some (((1 : Nat) : Int) + 1)) 1
          = List.range (1 + 1))
      ∧ ((0 : Nat) = 0 → sliceIndices ((fun t => if t = 0 then 5 else if t = 1 then 3 else 4)
            (([10] : List Nat).getD 0 default)) (1 : Int) (some (((1 : Nat) : Int) + 1)) 1
          = (List.range 1).map (fun i => i + 1))
      ∧ ((construct_TP_from_plus_and_minus_traj_segments
            (fun t => if t = 0 then [false, false, true, false, false]
                      else [false, false, false])
            (fun _ => [false, true, false, false])
            ([0, 1] : List Nat) [10]).map (fun pl =>
              (planSelections (fun t => if t = 0 then 5 else if t = 1 then 3 else 4)
                pl.1 pl.2).length)
          = some 4) :=
  C2_two_direction_join (fun t => if t = 0 then 5 else if t = 1 then 3 else 4)
    (fun t => if t = 0 then [false, false, true, false, false] else [false, false, false])
    (fun _ => [false, true, false, false]) ([0, 1] : List Nat) [10]
    (show locate1D (([0, 1] : List Nat).map
        (fun t => if t = 0 then [false, false, true, false, false]
                  else [false, false, false])) = some (2, 0, 2) by decide)
    (show locate1D (([10] : List Nat).map (fun _ => [false, true, false, false]))
        = some (1, 0, 1) by decide)
    (by decide) (by decide) (by decide)
